import Mathlib

/-!
# Verification of the tomlantic tree-diff and selective-merge engine

This file shallowly embeds the core of `tomlantic/tomlantic.py`:
TOML-ish document trees, pydantic-style object trees (models), the raw
path accessors `get_toml_field` / `set_toml_field`, the error classifier
`handle_validation_error`, and the `ModelBoundTOML` operations
`model_dump_toml`, `difference_between_document` and
`load_from_document`.  Python mutation is rendered as explicit state
passing; exceptions are rendered as `Except`; the external schema
engine's per-field assignment validation hook is an abstract parameter.
-/

namespace Tomlantic

/-- A TOML-ish value as stored in a `tomlkit` document tree.  `none`
models the Python `None` object (which can live in an object tree but
not in a document tree); `table` models `tomlkit` tables/documents,
which are the only nodes the source treats as containers. -/
inductive Val where
  | none : Val
  | bool : Bool → Val
  | int : Int → Val
  | str : String → Val
  | table : List (String × Val) → Val
  deriving Repr

/-- A pydantic-style object-tree node: either a non-`BaseModel` leaf
value (scalar/collection, compared by value) or a nested `BaseModel`
with named fields in declaration order. -/
inductive MVal where
  | scalar : Val → MVal
  | record : List (String × MVal) → MVal
  deriving Repr

mutual

def Val.decEq : (a b : Val) → Decidable (a = b)
  | .none, .none => .isTrue rfl
  | .none, .bool _ => .isFalse (fun h => Val.noConfusion h)
  | .none, .int _ => .isFalse (fun h => Val.noConfusion h)
  | .none, .str _ => .isFalse (fun h => Val.noConfusion h)
  | .none, .table _ => .isFalse (fun h => Val.noConfusion h)
  | .bool _, .none => .isFalse (fun h => Val.noConfusion h)
  | .bool a, .bool b => decidable_of_iff (a = b) (by simp)
  | .bool _, .int _ => .isFalse (fun h => Val.noConfusion h)
  | .bool _, .str _ => .isFalse (fun h => Val.noConfusion h)
  | .bool _, .table _ => .isFalse (fun h => Val.noConfusion h)
  | .int _, .none => .isFalse (fun h => Val.noConfusion h)
  | .int _, .bool _ => .isFalse (fun h => Val.noConfusion h)
  | .int a, .int b => decidable_of_iff (a = b) (by simp)
  | .int _, .str _ => .isFalse (fun h => Val.noConfusion h)
  | .int _, .table _ => .isFalse (fun h => Val.noConfusion h)
  | .str _, .none => .isFalse (fun h => Val.noConfusion h)
  | .str _, .bool _ => .isFalse (fun h => Val.noConfusion h)
  | .str _, .int _ => .isFalse (fun h => Val.noConfusion h)
  | .str a, .str b => decidable_of_iff (a = b) (by simp)
  | .str _, .table _ => .isFalse (fun h => Val.noConfusion h)
  | .table _, .none => .isFalse (fun h => Val.noConfusion h)
  | .table _, .bool _ => .isFalse (fun h => Val.noConfusion h)
  | .table _, .int _ => .isFalse (fun h => Val.noConfusion h)
  | .table _, .str _ => .isFalse (fun h => Val.noConfusion h)
  | .table a, .table b =>
    @decidable_of_iff _ _ (by simp) (Val.decEqFields a b)

def Val.decEqFields : (a b : List (String × Val)) → Decidable (a = b)
  | [], [] => .isTrue rfl
  | [], _ :: _ => .isFalse (by simp)
  | _ :: _, [] => .isFalse (by simp)
  | (k, v) :: r, (k', v') :: r' =>
    have d1 : Decidable (v = v') := Val.decEq v v'
    have d2 : Decidable (r = r') := Val.decEqFields r r'
    decidable_of_iff (k = k' ∧ v = v' ∧ r = r') (by simp [and_assoc])

end

instance : DecidableEq Val := Val.decEq

mutual

def MVal.decEq : (a b : MVal) → Decidable (a = b)
  | .scalar a, .scalar b => decidable_of_iff (a = b) (by simp)
  | .scalar _, .record _ => .isFalse (fun h => MVal.noConfusion h)
  | .record _, .scalar _ => .isFalse (fun h => MVal.noConfusion h)
  | .record a, .record b =>
    @decidable_of_iff _ _ (by simp) (MVal.decEqFields a b)

def MVal.decEqFields : (a b : List (String × MVal)) → Decidable (a = b)
  | [], [] => .isTrue rfl
  | [], _ :: _ => .isFalse (by simp)
  | _ :: _, [] => .isFalse (by simp)
  | (k, v) :: r, (k', v') :: r' =>
    have d1 : Decidable (v = v') := MVal.decEq v v'
    have d2 : Decidable (r = r') := MVal.decEqFields r r'
    decidable_of_iff (k = k' ∧ v = v' ∧ r = r') (by simp [and_assoc])

end

instance : DecidableEq MVal := MVal.decEq

/-- First-occurrence key lookup in an association list (Python `dict`
style `get`/`[]`/`in` on `tomlkit` tables and pydantic field maps). -/
def lookup {α : Type} (kvs : List (String × α)) (k : String) : Option α :=
  match kvs with
  | [] => Option.none
  | (k', v) :: rest => if k' = k then some v else lookup rest k

/-- Python `k in table` membership. -/
def containsKey {α : Type} (kvs : List (String × α)) (k : String) : Bool :=
  (lookup kvs k).isSome

/-- Python `table[k] = v`: replace the first binding of `k` in place,
or append a new binding at the end. -/
def setKey {α : Type} (kvs : List (String × α)) (k : String) (v : α) :
    List (String × α) :=
  match kvs with
  | [] => [(k, v)]
  | (k', v') :: rest =>
    if k' = k then (k', v) :: rest else (k', v') :: setKey rest k v

/-! ## Dotted location paths

The source passes locations either as tuples of segments or as
dot-separated strings; strings are converted with Python
`location.split(".")`, and `difference_between_document` builds paths
with f-string concatenation and finally `str.strip(".")`.  We embed
Python `str.split(".")` and `str.strip(".")` at the character level. -/

/-- Prepend a character onto the first part of a split result. -/
def consHead (c : Char) : List (List Char) → List (List Char)
  | [] => [[c]]
  | h :: t => (c :: h) :: t

/-- Python `s.split(".")` on the character list: always returns at least
one (possibly empty) part. -/
def splitDotsChars : List Char → List (List Char)
  | [] => [[]]
  | c :: cs =>
    if c = '.' then [] :: splitDotsChars cs
    else consHead c (splitDotsChars cs)

/-- Python `location.split(".")`. -/
def splitDots (s : String) : List String :=
  (splitDotsChars s.data).map (fun cs => ⟨cs⟩)

/-- Python `s.strip(".")` on the character list: drop leading and
trailing `'.'` characters. -/
def stripDotsChars (cs : List Char) : List Char :=
  ((cs.dropWhile (· = '.')).reverse.dropWhile (· = '.')).reverse

/-- Python `s.strip(".")`. -/
def stripDots (s : String) : String :=
  ⟨stripDotsChars s.data⟩

/-- Python `".".join(parts)` on character lists. -/
def joinDotsChars : List (List Char) → List Char
  | [] => []
  | [p] => p
  | p :: rest => p ++ '.' :: joinDotsChars rest

/-- Python `".".join(parts)`. -/
def joinDots (parts : List String) : String :=
  ⟨joinDotsChars (parts.map String.data)⟩

/-- A usable pydantic field name: nonempty and containing no `'.'`
(Python identifiers satisfy this), so that dotted paths round-trip. -/
def goodKey (k : String) : Prop :=
  k.data ≠ [] ∧ '.' ∉ k.data

instance (k : String) : Decidable (goodKey k) := by
  unfold goodKey; infer_instance

/-! ## Raw path addressing on document trees (`get_toml_field`,
`set_toml_field`) -/

/-- Ground-truth total path lookup in a document tree: follows tables
along the path, `none` as soon as a segment is absent or an
intermediate is not a table.  (Reference semantics only; the source's
`get_toml_field` is embedded separately below.) -/
def lookupPath : List (String × Val) → List String → Option Val
  | kvs, [] => some (Val.table kvs)
  | kvs, [k] => lookup kvs k
  | kvs, k :: rest =>
    match lookup kvs k with
    | some (Val.table t) => lookupPath t rest
    | _ => Option.none

/-- The loop body of `get_toml_field` (tomlantic.py:256-263): `field`
is the node reached so far; each step does `field.get(loc, default)`,
returns `default` as soon as the looked-up value compares equal to
`default`, and raises `AttributeError` (modelled as `.error ()`) when
`field` is not a table-like node, since only tables have `.get`. -/
def getTomlGo : Val → List String → Val → Except Unit Val
  | field, [], _ => .ok field
  | field, loc :: rest, default =>
    match field with
    | Val.table kvs =>
      let next := (lookup kvs loc).getD default
      if next = default then .ok default
      else getTomlGo next rest default
    | _ => .error ()

/-- `get_toml_field(document, location, default)`
(tomlantic.py:229-263) with the location already in tuple form. -/
def get_toml_field (document : List (String × Val)) (location : List String)
    (default : Val) : Except Unit Val :=
  getTomlGo (Val.table document) location default

/-- Errors of `set_toml_field`: `nonContainer` models the
`LookupError` raised for a non-table intermediate, `badLocation`
models the `IndexError` from `location[-1]` on an empty location. -/
inductive SetDocErr where
  | nonContainer : SetDocErr
  | badLocation : SetDocErr
  deriving Repr, DecidableEq

/-- `set_toml_field(document, location, value)` (tomlantic.py:266-314):
walk all but the last segment, creating an empty table at a missing
intermediate, raising `LookupError` when an intermediate holds a
non-table, then assign the final segment. -/
def set_toml_field (kvs : List (String × Val)) (location : List String)
    (value : Val) : Except SetDocErr (List (String × Val)) :=
  match location with
  | [] => .error .badLocation
  | [last] => .ok (setKey kvs last value)
  | k :: rest =>
    match lookup kvs k with
    | Option.none =>
      (set_toml_field [] rest value).map (fun t => setKey kvs k (Val.table t))
    | some (Val.table t) =>
      (set_toml_field t rest value).map (fun t' => setKey kvs k (Val.table t'))
    | some _ => .error .nonContainer

/-- Decides whether the `set_toml_field` walk meets an existing
non-table value at an intermediate segment (the condition under which
the source raises its `LookupError`). -/
def hitsNonContainer : List (String × Val) → List String → Bool
  | _, [] => false
  | _, [_] => false
  | kvs, k :: rest =>
    match lookup kvs k with
    | Option.none => false
    | some (Val.table t) => hitsNonContainer t rest
    | some _ => true

/-- The traversal of `get_toml_field` is clean for a path when every
present intermediate value is a table and no present intermediate
value compares equal to the default (the two situations in which the
source's loop short-circuits or raises). -/
def cleanPath : List (String × Val) → List String → Val → Bool
  | _, [], _ => true
  | _, [_], _ => true
  | kvs, k :: rest, d =>
    match lookup kvs k with
    | Option.none => true
    | some (Val.table t) => decide (Val.table t ≠ d) && cleanPath t rest d
    | some _ => false

/-- The walk `get_toml_field` itself performs over a prefix of the
location: the table reached after traversing the prefix, or `none` if
the code would have short-circuited or raised along it. -/
def walkCode : List (String × Val) → List String → Val → Option (List (String × Val))
  | kvs, [], _ => some kvs
  | kvs, k :: rest, d =>
    match lookup kvs k with
    | some (Val.table t) =>
      if Val.table t = d then Option.none else walkCode t rest d
    | _ => Option.none

/-! ## The bound document (`ModelBoundTOML`)

The external schema engine is abstracted: a `Validator` receives the
full dotted location being assigned (in tuple form), the field map of
the record instance being assigned into, and the raw value, and either
rejects the assignment (pydantic `ValidationError`) or returns the
validated/coerced object-tree value actually stored. -/

def Validator : Type :=
  List String → List (String × MVal) → Val → Option MVal

/-- The state owned by a `ModelBoundTOML` instance: the live model,
the snapshot `__original_model` taken at bind time, and the document
tree passed at construction. -/
structure BoundState where
  model : List (String × MVal)
  originalModel : List (String × MVal)
  document : List (String × Val)
  deriving Repr, DecidableEq

/-- Errors surfacing from `ModelBoundTOML` methods: `attrErr` is a
Python `AttributeError` from attribute traversal, `validationErr` the
`TOMLValidationError` raised after a failed assignment validation,
`tomlGetErr` the `AttributeError` escaping from `get_toml_field`. -/
inductive LoadErr where
  | attrErr : LoadErr
  | validationErr : LoadErr
  | tomlGetErr : LoadErr
  deriving Repr, DecidableEq

/-- Attribute-style traversal of an object tree (the loop of
`_get_model_field`, tomlantic.py:540-573): `getattr` succeeds only on
record (`BaseModel`) nodes; on a leaf or a missing field it raises
`AttributeError`, modelled as `none`. -/
def getAttrPathM : MVal → List String → Option MVal
  | m, [] => some m
  | MVal.record fs, k :: rest =>
    match lookup fs k with
    | some v => getAttrPathM v rest
    | Option.none => Option.none
  | MVal.scalar _, _ :: _ => Option.none

/-- `_get_model_field(model, location, default)`: the whole traversal
is wrapped in `try/except AttributeError`, returning `default`. -/
def _get_model_field (fields : List (String × MVal)) (location : List String)
    (default : MVal) : MVal :=
  (getAttrPathM (MVal.record fields) location).getD default

/-- `ModelBoundTOML.get_field(location)` with the default `None`
(`MVal.scalar Val.none`), for a dotted string location. -/
def getFieldPy (fields : List (String × MVal)) (location : String) : MVal :=
  _get_model_field fields (splitDots location) (MVal.scalar Val.none)

/-- `ModelBoundTOML.set_field(location, value)`
(tomlantic.py:699-744): walk to the penultimate segment with
`getattr` (raising `AttributeError` on a missing or non-record
intermediate), then assign the final segment; the schema engine's
assignment hook `V` validates, a failure being surfaced as the
aggregate `TOMLValidationError` (with the full location as override).
`fullLoc` is the complete location, passed to the validator. -/
def setModelFields (V : Validator) (fullLoc : List String) :
    List (String × MVal) → List String → Val →
    Except LoadErr (List (String × MVal))
  | _, [], _ => .error .attrErr
  | fields, [last], value =>
    match V fullLoc fields value with
    | Option.none => .error .validationErr
    | some mv => .ok (setKey fields last mv)
  | fields, k :: rest, value =>
    match lookup fields k with
    | some (MVal.record sub) =>
      (setModelFields V fullLoc sub rest value).map
        (fun sub' => setKey fields k (MVal.record sub'))
    | some (MVal.scalar _) => .error .attrErr
    | Option.none => .error .attrErr

/-- `ModelBoundTOML.set_field` on a bound state, with a dotted string
location (split on `"."` as in the source). -/
def set_field (V : Validator) (s : BoundState) (location : String) (value : Val) :
    Except LoadErr BoundState :=
  (setModelFields V (splitDots location) s.model (splitDots location) value).map
    (fun m => { s with model := m })

/-- The recursive patch walk of `model_dump_toml`
(`apply_model_differences`, tomlantic.py:663-696): zip the snapshot
and current models in lockstep; recurse into record fields (creating
the document sub-table if absent), overwrite a key whose `(key,
value)` pair differs between snapshot and current, leave equal fields
untouched.  The source's `assert` statements (differing keys, old
value not a `BaseModel`, recursing into a non-table) are modelled as
`.error ()`. -/
def applyModelDifferences :
    List (String × MVal) → List (String × MVal) → List (String × Val) →
    Except Unit (List (String × Val))
  | [], _, toml => .ok toml
  | _ :: _, [], toml => .ok toml
  | (ogk, ogv) :: ogs, (cuk, cuv) :: cus, toml =>
    if ogk = cuk then
      match cuv with
      | MVal.record cuFields =>
        match ogv with
        | MVal.record ogFields =>
          let toml1 := if containsKey toml cuk then toml
                       else setKey toml cuk (Val.table [])
          match lookup toml1 cuk with
          | some (Val.table t) =>
            match applyModelDifferences ogFields cuFields t with
            | .error e => .error e
            | .ok t' =>
              applyModelDifferences ogs cus (setKey toml1 cuk (Val.table t'))
          | some _ => .error ()
          | Option.none => .error ()
        | MVal.scalar _ => .error ()
      | MVal.scalar cv =>
        if (ogk, ogv) = (cuk, cuv) then applyModelDifferences ogs cus toml
        else applyModelDifferences ogs cus (setKey toml cuk cv)
    else .error ()

/-- `ModelBoundTOML.model_dump_toml` (tomlantic.py:654-697): deep-copy
the stored document (value copy here) and patch it with the
differences between snapshot and current model.  The stored document
tree itself is never modified. -/
def model_dump_toml (s : BoundState) : Except Unit (List (String × Val)) :=
  applyModelDifferences s.originalModel s.model s.document

/-- `tomlantic.Difference`. -/
structure Difference where
  incoming_changed_fields : List String
  outgoing_changed_fields : List String
  deriving Repr, DecidableEq

/-- The recursive walk `find_differences` of
`ModelBoundTOML.difference_between_document` (tomlantic.py:796-849),
returning the `(incoming_changed, outgoing_changed)` contributions in
traversal-append order.  Paths are built with Python f-string
concatenation `location + "." + key`. -/
def findDiffs : String → List (String × MVal) → List (String × Val) →
    List String × List String
  | _, [], _ => ([], [])
  | location, (k, MVal.record fs) :: rest, incoming =>
    let child :=
      match lookup incoming k with
      | Option.none => (([] : List String), [location ++ "." ++ k])
      | some (Val.table t) => findDiffs (location ++ "." ++ k) fs t
      | some _ => ([location ++ "." ++ k], ([] : List String))
    let r := findDiffs location rest incoming
    (child.1 ++ r.1, child.2 ++ r.2)
  | location, (k, MVal.scalar v) :: rest, incoming =>
    let child : List String × List String :=
      match lookup incoming k with
      | Option.none => ([], [location ++ "." ++ k])
      | some w => if v = w then ([], []) else ([location ++ "." ++ k], [])
    let r := findDiffs location rest incoming
    (child.1 ++ r.1, child.2 ++ r.2)

/-- `ModelBoundTOML.difference_between_document`
(tomlantic.py:780-863): run the walk from the empty location and strip
`'.'` from both ends of every produced path (`f.strip(".")`). -/
def difference_between_document (s : BoundState)
    (incoming : List (String × Val)) : Difference :=
  let r := findDiffs "" s.model incoming
  ⟨r.1.map stripDots, r.2.map stripDots⟩

/-- The merge loop of `ModelBoundTOML.load_from_document`
(tomlantic.py:890-911), iterating over the diff's incoming-changed
dotted paths and acting on the trial copy `trial` (the model of
`new_model = deepcopy(self)`).  The skip condition and the `is not
None` guard read the *live* state `s`, never the trial. -/
def loadFromLoop (V : Validator) (s : BoundState)
    (incoming : List (String × Val)) (selective : Bool)
    (outgoing : List String) :
    List String → List (String × MVal) → Except LoadErr (List (String × MVal))
  | [], trial => .ok trial
  | loc :: rest, trial =>
    if selective && (decide (loc ∈ outgoing) ||
        decide (getFieldPy s.model loc ≠ getFieldPy s.originalModel loc)) then
      loadFromLoop V s incoming selective outgoing rest trial
    else if getFieldPy s.model loc ≠ MVal.scalar Val.none then
      match get_toml_field incoming (splitDots loc) Val.none with
      | .error _ => .error .tomlGetErr
      | .ok value =>
        match setModelFields V (splitDots loc) trial (splitDots loc) value with
        | .error e => .error e
        | .ok trial' => loadFromLoop V s incoming selective outgoing rest trial'
    else loadFromLoop V s incoming selective outgoing rest trial

/-- `ModelBoundTOML.load_from_document` (tomlantic.py:865-913):
compute the diff, run every per-field trial `set_field` on the deep
copy, and only then adopt the trial copy's model (`self.model =
new_model.model`).  Any exception from the loop propagates before the
live state is touched. -/
def load_from_document (V : Validator) (s : BoundState)
    (incoming : List (String × Val)) (selective : Bool) :
    Except LoadErr BoundState :=
  let differences := difference_between_document s incoming
  match loadFromLoop V s incoming selective
      differences.outgoing_changed_fields
      differences.incoming_changed_fields s.model with
  | .error e => .error e
  | .ok m' => .ok { s with model := m' }

/-! ## The error classifier (`handle_validation_error`) -/

/-- One segment of a raw pydantic error location: pydantic reports
tuples mixing attribute names and sequence indices. -/
inductive LocItem where
  | strSeg : String → LocItem
  | intSeg : Int → LocItem
  deriving Repr, DecidableEq

/-- A raw pydantic `ErrorDetails` record as consumed by the
classifier: the failure-type tag (`None` possible), the reported
location, and the human message (`msg` key possibly absent). -/
structure ErrorDetails where
  type : Option String
  loc : List LocItem
  msg : Option String
  deriving Repr, DecidableEq

/-- The closed taxonomy of single tomlantic errors
(`TOMLMissingError`, `TOMLFrozenError`, `TOMLAttributeError`,
`TOMLValueError`). -/
inductive ErrKind where
  | missingField : ErrKind
  | frozenField : ErrKind
  | unknownField : ErrKind
  | invalidValue : ErrKind
  deriving Repr, DecidableEq

/-- A classified single error (`TOMLBaseSingleError` subclass
instance): its kind, dotted location, message, and the originating raw
pydantic error. -/
structure TOMLSingleError where
  kind : ErrKind
  loc : List String
  msg : String
  pydantic_error : ErrorDetails
  deriving Repr, DecidableEq

/-- The aggregate `TOMLValidationError`, with its human-readable
message and the structured error tuple. -/
structure TOMLValidationErrorE where
  message : String
  errors : List TOMLSingleError
  deriving Repr, DecidableEq

/-- `validate_homogeneous_collection(loc, str)`
(tomlantic.py:124-160) as used by the classifier: succeeds with the
string segments when every entry is a string, otherwise raises
(`none`). -/
def allStrings : List LocItem → Option (List String)
  | [] => some []
  | LocItem.strSeg s :: rest => (allStrings rest).map (s :: ·)
  | LocItem.intSeg _ :: _ => Option.none

/-- The `loc` computation of `handle_validation_error`
(tomlantic.py:442-452): start from `("unknown",)`, use the override
when given, otherwise the validated raw location; any exception keeps
`("unknown",)`. -/
def computeLoc (raw : List LocItem) (override : Option (List String)) :
    List String :=
  match override with
  | some l => l
  | Option.none =>
    match allStrings raw with
    | some ss => ss
    | Option.none => ["unknown"]

/-- Python `sep.join(parts)`. -/
def joinSep (sep : String) : List String → String
  | [] => ""
  | [p] => p
  | p :: rest => p ++ sep ++ joinSep sep rest

/-- The first loop of `handle_validation_error`
(tomlantic.py:441-506): for each raw error, skip a null tag, else
append the classified single error (first matching branch wins),
accumulating in Python list-append order. -/
def handleLoop (override : Option (List String)) :
    List ErrorDetails → List TOMLSingleError → List TOMLSingleError
  | [], acc => acc
  | e :: rest, acc =>
    let loc := computeLoc e.loc override
    match e.type with
    | Option.none => handleLoop override rest acc
    | some t =>
      if t = "missing" then
        handleLoop override rest (acc ++
          [⟨ErrKind.missingField, loc,
            e.msg.getD "the required field is missing from the document", e⟩])
      else if t = "frozen_field" ∨ t = "frozen_instance" then
        handleLoop override rest (acc ++
          [⟨ErrKind.frozenField, loc,
            e.msg.getD
              "attempting to override a field that is frozen or an instance that is frozen",
            e⟩])
      else if t = "no_such_attribute" ∨ t = "extra_forbidden" then
        handleLoop override rest (acc ++
          [⟨ErrKind.unknownField, loc,
            e.msg.getD
              "the field does not exist or is an extra field not in the model",
            e⟩])
      else
        handleLoop override rest (acc ++
          [⟨ErrKind.invalidValue, loc, e.msg.getD "unknown value error", e⟩])

/-- The per-error summary line of the second loop
(tomlantic.py:508-512): `Field "<dotted path>": <message> (<raw
tag>)`. -/
def errorLine (te : TOMLSingleError) : String :=
  "Field \x22" ++ joinDots te.loc ++ "\x22: " ++ te.msg ++
    " (" ++ te.pydantic_error.type.getD "None" ++ ")"

/-- `handle_validation_error` (tomlantic.py:420-519).  The Python
function is `NoReturn`: it always raises the aggregate
`TOMLValidationError`; we model it as a total function returning the
raised exception value. -/
def handle_validation_error (errs : List ErrorDetails)
    (location_override : Option (List String)) : TOMLValidationErrorE :=
  let errors := handleLoop location_override errs []
  let error_messages := errors.map errorLine
  ⟨toString errors.length ++ " " ++
      (if errors.length = 1 then "error" else "errors") ++
      " occurred while validating the TOML document:\n" ++
      joinSep "\n" (error_messages.map ("  " ++ ·)),
    errors⟩

/-! ## Spec-side definitions

These definitions follow the specification's words, not the source;
each claim's theorem compares the embedded source against them. -/

/-- Spec-side classification table (§4.3 of the spec), first match
wins. -/
def specKindOf (tag : String) : ErrKind :=
  if tag = "missing" then ErrKind.missingField
  else if tag = "frozen_field" ∨ tag = "frozen_instance" then ErrKind.frozenField
  else if tag = "no_such_attribute" ∨ tag = "extra_forbidden" then
    ErrKind.unknownField
  else ErrKind.invalidValue

/-- Spec-side default message for each kind (what the source supplies
when the raw error lacks a `msg`). -/
def specDefaultMsg : ErrKind → String
  | ErrKind.missingField => "the required field is missing from the document"
  | ErrKind.frozenField =>
    "attempting to override a field that is frozen or an instance that is frozen"
  | ErrKind.unknownField =>
    "the field does not exist or is an extra field not in the model"
  | ErrKind.invalidValue => "unknown value error"

/-- Spec-side per-failure record: a failure with an absent/null tag is
skipped, any other is mapped by its tag. -/
def specRecordOf (override : Option (List String)) (e : ErrorDetails) :
    Option TOMLSingleError :=
  e.type.map (fun tag =>
    ⟨specKindOf tag, computeLoc e.loc override,
      e.msg.getD (specDefaultMsg (specKindOf tag)), e⟩)

/-- Spec-side aggregate: all non-skipped records batched into a single
failure whose summary has one formatted line per error. -/
def specAggregate (errs : List ErrorDetails)
    (override : Option (List String)) : TOMLValidationErrorE :=
  let records := errs.filterMap (specRecordOf override)
  ⟨toString records.length ++ " " ++
      (if records.length = 1 then "error" else "errors") ++
      " occurred while validating the TOML document:\n" ++
      joinSep "\n" (records.map (fun te => "  " ++ errorLine te)),
    records⟩

/-- Spec-side diff classification (§4.4 "Cross-document diff" of the
spec), producing segment-list paths: a nested-record field whose key
is absent on the incoming side is outgoing-changed, present but not a
table is incoming-changed, a table is recursed into; a
scalar/collection field absent is outgoing-changed,
present-and-unequal incoming-changed, present-and-equal nothing. -/
def diffSpecSegs : List (String × MVal) → List (String × Val) →
    List (List String) × List (List String)
  | [], _ => ([], [])
  | (k, MVal.record fs) :: rest, incoming =>
    let child : List (List String) × List (List String) :=
      match lookup incoming k with
      | Option.none => ([], [[k]])
      | some (Val.table t) =>
        let inner := diffSpecSegs fs t
        (inner.1.map (k :: ·), inner.2.map (k :: ·))
      | some _ => ([[k]], [])
    let r := diffSpecSegs rest incoming
    (child.1 ++ r.1, child.2 ++ r.2)
  | (k, MVal.scalar v) :: rest, incoming =>
    let child : List (List String) × List (List String) :=
      match lookup incoming k with
      | Option.none => ([], [[k]])
      | some w => if v = w then ([], []) else ([[k]], [])
    let r := diffSpecSegs rest incoming
    (child.1 ++ r.1, child.2 ++ r.2)

/-- Every field name of the object tree, recursively, is a good key
(nonempty and dot-free — true of any pydantic model, whose field names
are Python identifiers). -/
def keysGoodB : List (String × MVal) → Bool
  | [] => true
  | (k, MVal.scalar _) :: rest => decide (goodKey k) && keysGoodB rest
  | (k, MVal.record fs) :: rest =>
    decide (goodKey k) && keysGoodB fs && keysGoodB rest

mutual

/-- Well-formedness of an object-tree node: every record has good
(nonempty, dot-free) and pairwise distinct field names, recursively.
True of any pydantic model, whose field names are distinct Python
identifiers. -/
def mvalWF : MVal → Bool
  | MVal.scalar _ => true
  | MVal.record fs => fieldsWF fs

/-- Well-formedness of a record's field list. -/
def fieldsWF : List (String × MVal) → Bool
  | [] => true
  | (k, v) :: rest =>
    decide (goodKey k) && !(containsKey rest k) && mvalWF v && fieldsWF rest

end

/-- The document tree faithfully reflects the object tree: every
model field is present on the document side, scalar leaves with an
equal value and records as tables, recursively.  This is what binding
establishes when the schema engine performs no coercion and the
document supplies every field. -/
def faithfulB : List (String × MVal) → List (String × Val) → Bool
  | [], _ => true
  | (k, MVal.scalar v) :: rest, kvs =>
    decide (lookup kvs k = some v) && faithfulB rest kvs
  | (k, MVal.record fs) :: rest, kvs =>
    (match lookup kvs k with
     | some (Val.table t) => faithfulB fs t
     | _ => false) && faithfulB rest kvs

/-- Lockstep compatibility of snapshot and current model: same field
names in the same order at every level, and wherever the current
value is a record the snapshot value is a record too (pydantic
guarantees this, since the two instances share the schema). -/
def alignedB : List (String × MVal) → List (String × MVal) → Bool
  | [], [] => true
  | (ogk, ogv) :: ogs, (cuk, cuv) :: cus =>
    decide (ogk = cuk) &&
    (match cuv, ogv with
     | MVal.record cf, MVal.record og => alignedB og cf
     | MVal.record _, MVal.scalar _ => false
     | MVal.scalar _, _ => true) && alignedB ogs cus
  | _, _ => false

/-- Every nested-record field of the model is present as a table on
the document side, recursively (scalar fields may be absent). -/
def recordsPresentB : List (String × MVal) → List (String × Val) → Bool
  | [], _ => true
  | (_, MVal.scalar _) :: rest, kvs => recordsPresentB rest kvs
  | (k, MVal.record fs) :: rest, kvs =>
    (match lookup kvs k with
     | some (Val.table t) => recordsPresentB fs t
     | _ => false) && recordsPresentB rest kvs

/-! ## Helper lemmas -/

@[simp] theorem lookup_nil {α : Type} (k : String) :
    lookup ([] : List (String × α)) k = Option.none := rfl

theorem lookup_setKey_self {α : Type} (kvs : List (String × α)) (k : String) (v : α) :
    lookup (setKey kvs k v) k = some v := by
  induction kvs with
  | nil => simp [setKey, lookup]
  | cons hd tl ih =>
    obtain ⟨k', v'⟩ := hd
    by_cases h : k' = k <;> simp [setKey, lookup, h, ih]

theorem lookup_setKey_ne {α : Type} (kvs : List (String × α)) (k k' : String) (v : α)
    (h : k ≠ k') : lookup (setKey kvs k v) k' = lookup kvs k' := by
  induction kvs with
  | nil => simp [setKey, lookup, h]
  | cons hd tl ih =>
    obtain ⟨k₀, v₀⟩ := hd
    by_cases h0 : k₀ = k
    · subst h0
      simp [setKey, lookup, h]
    · simp [setKey, lookup, h0, ih]

theorem setKey_lookup_eq {α : Type} (kvs : List (String × α)) (k : String) (v : α)
    (h : lookup kvs k = some v) : setKey kvs k v = kvs := by
  induction kvs with
  | nil => simp [lookup] at h
  | cons hd tl ih =>
    obtain ⟨k₀, v₀⟩ := hd
    by_cases h0 : k₀ = k
    · subst h0
      simp [lookup] at h
      simp [setKey, h]
    · simp [lookup, h0] at h
      simp [setKey, h0, ih h]

theorem handleLoop_eq (o : Option (List String)) (l : List ErrorDetails)
    (acc : List TOMLSingleError) :
    handleLoop o l acc = acc ++ l.filterMap (specRecordOf o) := by
  induction l generalizing acc with
  | nil => simp [handleLoop]
  | cons e rest ih =>
    match he : e.type with
    | Option.none =>
      simp [handleLoop, he, specRecordOf, ih]
    | some t =>
      by_cases h1 : t = "missing"
      · simp [handleLoop, he, specRecordOf, specKindOf, specDefaultMsg, h1, ih]
      · by_cases h2 : t = "frozen_field" ∨ t = "frozen_instance"
        · simp [handleLoop, he, specRecordOf, specKindOf, specDefaultMsg, h1, h2, ih]
        · by_cases h3 : t = "no_such_attribute" ∨ t = "extra_forbidden"
          · simp [handleLoop, he, specRecordOf, specKindOf, specDefaultMsg,
              h1, h2, h3, ih]
          · simp [handleLoop, he, specRecordOf, specKindOf, specDefaultMsg,
              h1, h2, h3, ih]

/-! ## Claims C8 and C10: the error classifier -/

/-- **C8**: `handle_validation_error` classifies every raw failure by
its tag with first match winning (`"missing"` → missing-field,
`"frozen_field"`/`"frozen_instance"` → frozen-field,
`"no_such_attribute"`/`"extra_forbidden"` → unknown-field, any other
non-null tag → invalid-value, null tag skipped) and batches all
non-skipped records into the single aggregate error it raises, each
summary line formatted `Field "<dotted path>": <message> (<raw
tag>)` — i.e. it coincides with the spec-side classifier
`specAggregate`. -/
theorem c8_handle_validation_error_matches_spec_classifier
    (errs : List ErrorDetails) (o : Option (List String)) :
    handle_validation_error errs o = specAggregate errs o := by
  unfold handle_validation_error specAggregate
  rw [handleLoop_eq]
  simp only [List.nil_append, List.map_map]
  rfl

/-- **C10**: `handle_validation_error` produces the aggregate
`TOMLValidationError` for every input batch (it is modelled as a total
function into the raised exception value — the Python original is
`NoReturn` and never returns normally); in particular when every raw
failure has a null tag, every failure is skipped and the raised
aggregate carries an empty errors tuple and a message reporting zero
errors. -/
theorem c10_handle_validation_error_always_raises
    (errs : List ErrorDetails) (o : Option (List String))
    (hnull : ∀ e ∈ errs, e.type = Option.none) :
    handle_validation_error errs o =
      ⟨"0 errors occurred while validating the TOML document:\n", []⟩ := by
  have hempty : errs.filterMap (specRecordOf o) = [] := by
    rw [List.filterMap_eq_nil_iff]
    intro e he
    simp [specRecordOf, hnull e he]
  unfold handle_validation_error
  rw [handleLoop_eq, List.nil_append, hempty]
  rfl

/-- Witness for C10: a batch with a single null-tagged failure. -/
theorem c10_witness :
    handle_validation_error [⟨Option.none, [LocItem.strSeg "a"], some "m"⟩]
      Option.none =
      ⟨"0 errors occurred while validating the TOML document:\n", []⟩ := by
  exact c10_handle_validation_error_always_raises _ _ (by simp)

theorem lookup_eq_none_iff {α : Type} (kvs : List (String × α)) (k : String) :
    lookup kvs k = Option.none ↔ k ∉ kvs.map Prod.fst := by
  induction kvs with
  | nil => simp
  | cons hd tl ih =>
    obtain ⟨k', v⟩ := hd
    by_cases h : k' = k
    · subst h
      simp [lookup]
    · simp [lookup, h, ih, Ne.symm h]

theorem containsKey_false {α : Type} (kvs : List (String × α)) (k : String)
    (h : containsKey kvs k = false) : k ∉ kvs.map Prod.fst := by
  rw [← lookup_eq_none_iff]
  unfold containsKey at h
  cases hl : lookup kvs k with
  | none => rfl
  | some v => rw [hl] at h; simp at h

theorem applyDiff_id : ∀ (m : List (String × MVal)) (d : List (String × Val)),
    recordsPresentB m d = true → applyModelDifferences m m d = .ok d
  | [], _, _ => by simp [applyModelDifferences]
  | (k, MVal.scalar v) :: rest, d, h => by
    have hr : recordsPresentB rest d = true := by
      simpa [recordsPresentB] using h
    have ih := applyDiff_id rest d hr
    simp [applyModelDifferences, ih]
  | (k, MVal.record fs) :: rest, d, h => by
    simp only [recordsPresentB] at h
    match hl : lookup d k with
    | Option.none => simp [hl] at h
    | some Val.none | some (Val.bool _) | some (Val.int _) | some (Val.str _) =>
      simp [hl] at h
    | some (Val.table t) =>
      simp only [hl, Bool.and_eq_true] at h
      obtain ⟨hfs, hrest⟩ := h
      have ih1 := applyDiff_id fs t hfs
      have ih2 := applyDiff_id rest d hrest
      have hck : containsKey d k = true := by simp [containsKey, hl]
      have hset : setKey d k (Val.table t) = d := setKey_lookup_eq d k _ hl
      simp [applyModelDifferences, hck, hl, ih1, hset, ih2]

theorem faithfulB_setKey (fs : List (String × MVal)) (kvs : List (String × Val))
    (k : String) (v : Val) (hk : k ∉ fs.map Prod.fst) :
    faithfulB fs (setKey kvs k v) = faithfulB fs kvs := by
  induction fs with
  | nil => simp [faithfulB]
  | cons hd rest ih =>
    obtain ⟨k', mv⟩ := hd
    simp only [List.map_cons, List.mem_cons] at hk
    push_neg at hk
    obtain ⟨hk1, hk2⟩ := hk
    have hlk : lookup (setKey kvs k v) k' = lookup kvs k' :=
      lookup_setKey_ne kvs k k' v hk1
    match mv with
    | MVal.scalar sv => simp [faithfulB, hlk, ih hk2]
    | MVal.record rfs => simp [faithfulB, hlk, ih hk2]

theorem applyDiff_faithful :
    ∀ (og cu : List (String × MVal)) (toml : List (String × Val)),
      fieldsWF og = true → alignedB og cu = true → faithfulB og toml = true →
      ∃ toml', applyModelDifferences og cu toml = .ok toml' ∧
        faithfulB cu toml' = true ∧
        ∀ k', k' ∉ og.map Prod.fst → lookup toml' k' = lookup toml k'
  | [], cu, toml, _, hal, _ => by
    match cu with
    | [] =>
      exact ⟨toml, by simp [applyModelDifferences], by simp [faithfulB],
        fun _ _ => rfl⟩
    | _ :: _ => rw [alignedB.eq_def] at hal; simp at hal
  | (k, MVal.scalar sv) :: ogs, cu, toml, hwf, hal, hfa => by
    match cu with
    | [] => rw [alignedB.eq_def] at hal; simp at hal
    | (ck, cuv) :: cus =>
      rw [alignedB.eq_def] at hal
      simp only [Bool.and_eq_true, decide_eq_true_eq] at hal
      obtain ⟨⟨hkck, hmatch⟩, hal'⟩ := hal
      subst hkck
      simp only [fieldsWF] at hwf
      simp only [Bool.and_eq_true, Bool.not_eq_true'] at hwf
      obtain ⟨⟨⟨_, hnc⟩, _⟩, hwf'⟩ := hwf
      have hknotin : k ∉ ogs.map Prod.fst := containsKey_false ogs k hnc
      simp only [faithfulB] at hfa
      simp only [Bool.and_eq_true, decide_eq_true_eq] at hfa
      obtain ⟨hlk, hfa'⟩ := hfa
      match cuv, hmatch with
      | MVal.record cf, hmatch => exact absurd hmatch (by simp)
      | MVal.scalar cv, _ =>
        by_cases hvv : sv = cv
        · subst hvv
          obtain ⟨toml', happ, hcu, hpres⟩ :=
            applyDiff_faithful ogs cus toml hwf' hal' hfa'
          refine ⟨toml', ?_, ?_, ?_⟩
          · simp [applyModelDifferences, happ]
          · simp only [faithfulB]
            simp [hpres k hknotin, hlk, hcu]
          · intro k' hk'
            simp only [List.map_cons, List.mem_cons] at hk'
            push_neg at hk'
            exact hpres k' hk'.2
        · have hfa'' : faithfulB ogs (setKey toml k cv) = true := by
            rw [faithfulB_setKey ogs toml k cv hknotin]; exact hfa'
          obtain ⟨toml', happ, hcu, hpres⟩ :=
            applyDiff_faithful ogs cus (setKey toml k cv) hwf' hal' hfa''
          have hpair : ¬(((k, MVal.scalar sv) : String × MVal) =
              (k, MVal.scalar cv)) := by simp [hvv]
          refine ⟨toml', ?_, ?_, ?_⟩
          · simp [applyModelDifferences, hpair, happ]
          · simp only [faithfulB]
            have hl' : lookup toml' k = some cv := by
              rw [hpres k hknotin, lookup_setKey_self]
            simp [hl', hcu]
          · intro k' hk'
            simp only [List.map_cons, List.mem_cons] at hk'
            push_neg at hk'
            rw [hpres k' hk'.2, lookup_setKey_ne toml k k' cv (Ne.symm hk'.1)]
  | (k, MVal.record ofs) :: ogs, cu, toml, hwf, hal, hfa => by
    match cu with
    | [] => rw [alignedB.eq_def] at hal; simp at hal
    | (ck, cuv) :: cus =>
      rw [alignedB.eq_def] at hal
      simp only [Bool.and_eq_true, decide_eq_true_eq] at hal
      obtain ⟨⟨hkck, hmatch⟩, hal'⟩ := hal
      subst hkck
      simp only [fieldsWF] at hwf
      simp only [Bool.and_eq_true, Bool.not_eq_true'] at hwf
      obtain ⟨⟨⟨_, hnc⟩, hmw⟩, hwf'⟩ := hwf
      have hknotin : k ∉ ogs.map Prod.fst := containsKey_false ogs k hnc
      simp only [faithfulB] at hfa
      simp only [Bool.and_eq_true] at hfa
      obtain ⟨hm, hfa'⟩ := hfa
      match hl : lookup toml k with
      | Option.none => rw [hl] at hm; simp at hm
      | some Val.none | some (Val.bool _) | some (Val.int _) | some (Val.str _) =>
        rw [hl] at hm; simp at hm
      | some (Val.table t) =>
        rw [hl] at hm
        match cuv, hmatch with
        | MVal.scalar cv, _ =>
          have hfa'' : faithfulB ogs (setKey toml k cv) = true := by
            rw [faithfulB_setKey ogs toml k cv hknotin]; exact hfa'
          obtain ⟨toml', happ, hcu, hpres⟩ :=
            applyDiff_faithful ogs cus (setKey toml k cv) hwf' hal' hfa''
          have hpair : ¬(((k, MVal.record ofs) : String × MVal) =
              (k, MVal.scalar cv)) := by simp
          refine ⟨toml', ?_, ?_, ?_⟩
          · simp [applyModelDifferences, hpair, happ]
          · simp only [faithfulB]
            have hl' : lookup toml' k = some cv := by
              rw [hpres k hknotin, lookup_setKey_self]
            simp [hl', hcu]
          · intro k' hk'
            simp only [List.map_cons, List.mem_cons] at hk'
            push_neg at hk'
            rw [hpres k' hk'.2, lookup_setKey_ne toml k k' cv (Ne.symm hk'.1)]
        | MVal.record cf, hmatch =>
          have hmwfs : fieldsWF ofs = true := by simpa [mvalWF] using hmw
          obtain ⟨t', hiapp, hcf, _⟩ := applyDiff_faithful ofs cf t hmwfs hmatch hm
          have hfa'' : faithfulB ogs (setKey toml k (Val.table t')) = true := by
            rw [faithfulB_setKey ogs toml k _ hknotin]; exact hfa'
          obtain ⟨toml', happ, hcu, hpres⟩ :=
            applyDiff_faithful ogs cus (setKey toml k (Val.table t')) hwf' hal' hfa''
          have hck : containsKey toml k = true := by simp [containsKey, hl]
          refine ⟨toml', ?_, ?_, ?_⟩
          · simp [applyModelDifferences, hck, hl, hiapp, happ]
          · simp only [faithfulB]
            have hl' : lookup toml' k = some (Val.table t') := by
              rw [hpres k hknotin, lookup_setKey_self]
            simp [hl', hcf, hcu]
          · intro k' hk'
            simp only [List.map_cons, List.mem_cons] at hk'
            push_neg at hk'
            rw [hpres k' hk'.2, lookup_setKey_ne toml k k' _ (Ne.symm hk'.1)]

theorem findDiffs_faithful_empty :
    ∀ (loc : String) (cu : List (String × MVal)) (toml : List (String × Val)),
      faithfulB cu toml = true → findDiffs loc cu toml = ([], [])
  | _, [], _, _ => by simp [findDiffs]
  | loc, (k, MVal.scalar v) :: rest, toml, h => by
    simp only [faithfulB] at h
    simp only [Bool.and_eq_true, decide_eq_true_eq] at h
    obtain ⟨hlk, hrest⟩ := h
    have ih := findDiffs_faithful_empty loc rest toml hrest
    simp [findDiffs, hlk, ih]
  | loc, (k, MVal.record fs) :: rest, toml, h => by
    simp only [faithfulB] at h
    simp only [Bool.and_eq_true] at h
    obtain ⟨hm, hrest⟩ := h
    match hl : lookup toml k with
    | Option.none => rw [hl] at hm; simp at hm
    | some Val.none | some (Val.bool _) | some (Val.int _) | some (Val.str _) =>
      rw [hl] at hm; simp at hm
    | some (Val.table t) =>
      rw [hl] at hm
      have ih1 := findDiffs_faithful_empty (loc ++ "." ++ k) fs t hm
      have ih2 := findDiffs_faithful_empty loc rest toml hrest
      simp [findDiffs, hl, ih1, ih2]

/-! ## Claims C5 and C6: re-serialization laws -/

/-- **C5** (counterexample): the diff-symmetry law fails on the code.
A bound document whose model has a scalar field `name` that is absent
from the stored document (the schema engine supplied a default at bind
time) and was never mutated: `model_dump_toml` patches nothing, so the
dumped document still lacks `name`, and diffing against the dump
reports `name` as outgoing-changed. -/
theorem c5_counterexample :
    model_dump_toml ⟨[("name", MVal.scalar (Val.str "x"))],
        [("name", MVal.scalar (Val.str "x"))], []⟩ = .ok [] ∧
    difference_between_document ⟨[("name", MVal.scalar (Val.str "x"))],
        [("name", MVal.scalar (Val.str "x"))], []⟩ [] = ⟨[], ["name"]⟩ ∧
    (⟨[], ["name"]⟩ : Difference) ≠ ⟨[], []⟩ := by
  refine ⟨?_, ?_, by simp⟩
  · simp [model_dump_toml, applyModelDifferences]
  · simp [difference_between_document, findDiffs, lookup, stripDots,
      stripDotsChars]

/-- **C5** (amended): the diff-symmetry law
`difference_between_document (model_dump_toml ()) = (∅, ∅)` holds for
every bound document in any state *provided* the snapshot has
well-formed distinct field names, snapshot and current model are
lockstep-compatible (true of two instances of one schema, except that
a mutation may have replaced a record by a scalar but not vice versa),
and the stored document faithfully reflects the snapshot (every
snapshot field present, equal scalars, records as tables —
i.e. binding performed no coercion and the document omitted no
field). -/
theorem c5_diff_of_dump_empty (s : BoundState)
    (hwf : fieldsWF s.originalModel = true)
    (hal : alignedB s.originalModel s.model = true)
    (hfa : faithfulB s.originalModel s.document = true) :
    ∃ doc', model_dump_toml s = .ok doc' ∧
      difference_between_document s doc' = ⟨[], []⟩ := by
  obtain ⟨doc', happ, hcu, _⟩ :=
    applyDiff_faithful s.originalModel s.model s.document hwf hal hfa
  refine ⟨doc', happ, ?_⟩
  simp [difference_between_document,
    findDiffs_faithful_empty "" s.model doc' hcu]

/-- Witness for C5 (amended): a mutated model (`a` changed from `1` to
`2`) over a faithful document. -/
theorem c5_witness :
    ∃ doc', model_dump_toml ⟨[("a", MVal.scalar (Val.int 2))],
        [("a", MVal.scalar (Val.int 1))], [("a", Val.int 1)]⟩ = .ok doc' ∧
      difference_between_document ⟨[("a", MVal.scalar (Val.int 2))],
        [("a", MVal.scalar (Val.int 1))], [("a", Val.int 1)]⟩ doc' =
        ⟨[], []⟩ := by
  refine c5_diff_of_dump_empty _ ?_ ?_ ?_
  · simp [fieldsWF, containsKey, mvalWF, goodKey]
  · rw [alignedB.eq_def]
    simp
    rw [alignedB.eq_def]
  · simp [faithfulB, lookup]

/-- **C6** (counterexample): round-trip identity fails on the code:
for a schema with a nested-record field `sub` whose key is absent from
the (validating) document, `model_dump_toml` immediately after
construction materialises an empty `sub` table in the output, so the
dump is not equal to the original document. -/
theorem c6_counterexample :
    model_dump_toml ⟨[("sub", MVal.record [("x", MVal.scalar (Val.int 1))])],
        [("sub", MVal.record [("x", MVal.scalar (Val.int 1))])], []⟩ =
      .ok [("sub", Val.table [])] ∧
    [("sub", Val.table [])] ≠ ([] : List (String × Val)) := by
  constructor
  · simp [model_dump_toml, applyModelDifferences, containsKey, lookup, setKey]
  · simp

/-- **C6** (amended): for every schema and document that validate at
bind time, `model_dump_toml` called immediately after construction
(snapshot still equal to the live model) returns a document equal to
the original *provided every nested-record field key is present as a
table in the stored document, recursively*; an absent nested-record
key is instead materialised as an empty table in the output.  The
stored document tree itself is never mutated (the dump patches a deep
copy; in this embedding `model_dump_toml` is pure and `s.document` is
returned unchanged to the caller). -/
theorem c6_round_trip_identity (s : BoundState)
    (hrp : recordsPresentB s.model s.document = true)
    (hsame : s.originalModel = s.model) :
    model_dump_toml s = .ok s.document := by
  unfold model_dump_toml
  rw [hsame]
  exact applyDiff_id s.model s.document hrp

/-- Witness for C6 (amended): the spec's concrete scenario schema
`{project: {name: str}}` with every key present. -/
theorem c6_witness :
    model_dump_toml
      ⟨[("project", MVal.record [("name", MVal.scalar (Val.str "tomlantic"))])],
        [("project", MVal.record [("name", MVal.scalar (Val.str "tomlantic"))])],
        [("project", Val.table [("name", Val.str "tomlantic")])]⟩ =
      .ok [("project", Val.table [("name", Val.str "tomlantic")])] := by
  refine c6_round_trip_identity _ ?_ rfl
  simp [recordsPresentB, lookup]

/-! ## Claim C1: atomic merge -/

/-- **C1**: `load_from_document` is atomic.  The method mutates the
live state only in its final statement, so in this embedding it
returns either an error or the committed state: if any per-field trial
`set_field` call inside the loop fails (the loop over the trial copy
returns that error), `load_from_document` propagates exactly that
error and produces no successor state — the caller's live model is
exactly as before the call; the live model is replaced, wholesale by
the trial copy's model, only when every trial assignment validated. -/
theorem c1_load_from_document_atomic (V : Validator) (s : BoundState)
    (incoming : List (String × Val)) (selective : Bool) :
    (∀ e, loadFromLoop V s incoming selective
        (difference_between_document s incoming).outgoing_changed_fields
        (difference_between_document s incoming).incoming_changed_fields
        s.model = .error e →
      load_from_document V s incoming selective = .error e) ∧
    (∀ m', loadFromLoop V s incoming selective
        (difference_between_document s incoming).outgoing_changed_fields
        (difference_between_document s incoming).incoming_changed_fields
        s.model = .ok m' →
      load_from_document V s incoming selective =
        .ok { model := m', originalModel := s.originalModel,
              document := s.document }) := by
  constructor <;> intro x h <;> simp [load_from_document, h]

/-- Witness for C1: a validator that rejects every assignment; merging
a document that changes field `a` fails with the validation error and
yields no state. -/
theorem c1_witness :
    load_from_document (fun _ _ _ => Option.none)
      ⟨[("a", MVal.scalar (Val.int 1))], [("a", MVal.scalar (Val.int 1))],
        [("a", Val.int 1)]⟩
      [("a", Val.int 2)] true = .error .validationErr := by
  apply (c1_load_from_document_atomic (fun _ _ _ => Option.none)
    ⟨[("a", MVal.scalar (Val.int 1))], [("a", MVal.scalar (Val.int 1))],
      [("a", Val.int 1)]⟩ [("a", Val.int 2)] true).1
  have hdiff : difference_between_document
      ⟨[("a", MVal.scalar (Val.int 1))], [("a", MVal.scalar (Val.int 1))],
        [("a", Val.int 1)]⟩ [("a", Val.int 2)] = ⟨["a"], []⟩ := by
    simp [difference_between_document, findDiffs, lookup]
    rfl
  rw [hdiff]
  rfl

/-! ## Lemmas about dotted-path strings -/

theorem getLast?_mem' {α : Type} : ∀ (l : List α) (a : α),
    l.getLast? = some a → a ∈ l := by
  intro l
  induction l with
  | nil => intro a h; simp at h
  | cons x xs ih =>
    intro a h
    cases xs with
    | nil =>
      simp [List.getLast?] at h
      simp [h]
    | cons y ys =>
      rw [List.getLast?_cons_cons] at h
      exact List.mem_cons_of_mem _ (ih a h)

theorem joinDotsChars_cons (p : List Char) (ps : List (List Char))
    (h : ps ≠ []) : joinDotsChars (p :: ps) = p ++ '.' :: joinDotsChars ps := by
  match ps with
  | [] => exact absurd rfl h
  | q :: rest => rfl

theorem joinDots_single (k : String) : joinDots [k] = k := rfl

theorem joinDots_cons (k : String) (p : List String) (hp : p ≠ []) :
    joinDots (k :: p) = k ++ "." ++ joinDots p := by
  apply String.ext
  show joinDotsChars (k.data :: p.map String.data) = _
  rw [joinDotsChars_cons k.data (p.map String.data) (by simpa using hp)]
  rw [String.data_append, String.data_append, List.append_assoc]
  rfl

theorem splitDotsChars_ne_nil : ∀ cs : List Char, splitDotsChars cs ≠ [] := by
  intro cs
  induction cs with
  | nil => simp [splitDotsChars]
  | cons c rest ih =>
    simp only [splitDotsChars]
    by_cases h : c = '.'
    · simp [h]
    · simp only [if_neg h]
      match hr : splitDotsChars rest with
      | [] => simp [consHead]
      | x :: xs => simp [consHead]

theorem splitDotsChars_append (p : List Char) (cs : List Char)
    (hp : '.' ∉ p) :
    ∀ h t, splitDotsChars cs = h :: t →
      splitDotsChars (p ++ cs) = (p ++ h) :: t := by
  induction p with
  | nil => intro h t hs; simpa using hs
  | cons c p' ih =>
    intro h t hs
    simp only [List.mem_cons, not_or] at hp
    obtain ⟨hc, hp'⟩ := hp
    have hcne : ¬(c = '.') := fun hh => hc hh.symm
    have hrec := ih hp' h t hs
    show splitDotsChars (c :: (p' ++ cs)) = (c :: (p' ++ h)) :: t
    simp only [splitDotsChars, if_neg hcne, hrec, consHead]

theorem splitDotsChars_join : ∀ (pss : List (List Char)), pss ≠ [] →
    (∀ p ∈ pss, '.' ∉ p) →
    splitDotsChars (joinDotsChars pss) = pss := by
  intro pss
  induction pss with
  | nil => intro h; exact absurd rfl h
  | cons p ps ih =>
    intro _ hdot
    have hp : '.' ∉ p := hdot p (by simp)
    match ps with
    | [] =>
      have h0 : splitDotsChars (p ++ []) = [p ++ []] :=
        splitDotsChars_append p [] hp [] [] rfl
      show splitDotsChars (joinDotsChars [p]) = [p]
      rw [show joinDotsChars [p] = p from rfl]
      simpa using h0
    | q :: rest =>
      have hps : (q :: rest : List (List Char)) ≠ [] := by simp
      have ihps := ih hps (fun r hr => hdot r (List.mem_cons_of_mem _ hr))
      rw [joinDotsChars_cons p (q :: rest) hps]
      have hsplit : splitDotsChars ('.' :: joinDotsChars (q :: rest)) =
          [] :: (q :: rest) := by
        simp [splitDotsChars, ihps]
      have := splitDotsChars_append p ('.' :: joinDotsChars (q :: rest)) hp
        [] (q :: rest) hsplit
      simpa using this

theorem splitDots_joinDots (parts : List String) (hne : parts ≠ [])
    (hgood : ∀ k ∈ parts, '.' ∉ k.data) :
    splitDots (joinDots parts) = parts := by
  unfold splitDots joinDots
  rw [splitDotsChars_join (parts.map String.data) (by simpa using hne)
    (by intro p hp
        simp only [List.mem_map] at hp
        obtain ⟨k, hk, rfl⟩ := hp
        exact hgood k hk)]
  rw [List.map_map]
  have : ((fun cs => (⟨cs⟩ : String)) ∘ String.data) = id := funext (fun s => rfl)
  rw [this, List.map_id]

theorem joinDotsChars_head (pss : List (List Char)) (hne : pss ≠ [])
    (hp : ∀ p ∈ pss, p ≠ [] ∧ '.' ∉ p) :
    ∃ c rest, joinDotsChars pss = c :: rest ∧ c ≠ '.' := by
  match pss with
  | [] => exact absurd rfl hne
  | p :: ps =>
    obtain ⟨hpne, hpdot⟩ := hp p (by simp)
    match p, hpne with
    | c :: p', _ =>
      simp only [List.mem_cons, not_or] at hpdot
      match ps with
      | [] => exact ⟨c, p', rfl, Ne.symm hpdot.1⟩
      | q :: rest =>
        rw [joinDotsChars_cons (c :: p') (q :: rest) (by simp)]
        exact ⟨c, p' ++ '.' :: joinDotsChars (q :: rest), rfl, Ne.symm hpdot.1⟩

theorem joinDotsChars_getLast (pss : List (List Char)) (hne : pss ≠ [])
    (hp : ∀ p ∈ pss, p ≠ [] ∧ '.' ∉ p) :
    ∀ c, (joinDotsChars pss).getLast? = some c → c ≠ '.' := by
  induction pss with
  | nil => exact absurd rfl hne
  | cons p ps ih =>
    intro c hc
    obtain ⟨hpne, hpdot⟩ := hp p (by simp)
    match ps with
    | [] =>
      have : c ∈ p := getLast?_mem' p c hc
      intro hdot
      rw [hdot] at this
      exact hpdot this
    | q :: rest =>
      rw [joinDotsChars_cons p (q :: rest) (by simp)] at hc
      have hjoin : joinDotsChars (q :: rest) ≠ [] := by
        obtain ⟨c', r', hcr, _⟩ := joinDotsChars_head (q :: rest) (by simp)
          (fun r hr => hp r (List.mem_cons_of_mem _ hr))
        rw [hcr]
        simp
      rw [List.getLast?_append_of_ne_nil _ (by simp)] at hc
      have : ('.' :: joinDotsChars (q :: rest)).getLast? =
          (joinDotsChars (q :: rest)).getLast? := by
        match hj : joinDotsChars (q :: rest) with
        | [] => exact absurd hj hjoin
        | x :: xs => rw [List.getLast?_cons_cons]
      rw [this] at hc
      exact ih (by simp) (fun r hr => hp r (List.mem_cons_of_mem _ hr)) c hc

theorem stripDots_dot_join (parts : List String) (hne : parts ≠ [])
    (hgood : ∀ k ∈ parts, goodKey k) :
    stripDots ("." ++ joinDots parts) = joinDots parts := by
  have hps : ∀ p ∈ parts.map String.data, p ≠ [] ∧ '.' ∉ p := by
    intro p hp
    simp only [List.mem_map] at hp
    obtain ⟨k, hk, rfl⟩ := hp
    exact (hgood k hk)
  have hne' : parts.map String.data ≠ [] := by simpa using hne
  apply String.ext
  show stripDotsChars (("." ++ joinDots parts).data) = joinDotsChars (parts.map String.data)
  rw [String.data_append]
  show stripDotsChars ('.' :: joinDotsChars (parts.map String.data)) = _
  set cs := joinDotsChars (parts.map String.data) with hcs
  obtain ⟨c, r, hcr, hcdot⟩ := joinDotsChars_head (parts.map String.data) hne' hps
  have hlast : ∀ c', cs.getLast? = some c' → c' ≠ '.' :=
    joinDotsChars_getLast (parts.map String.data) hne' hps
  unfold stripDotsChars
  have h1 : List.dropWhile (· = '.') ('.' :: cs) = List.dropWhile (· = '.') cs := by
    rw [List.dropWhile_cons]
    simp
  have h2 : List.dropWhile (· = '.') cs = cs := by
    rw [← hcs] at hcr
    rw [hcr, List.dropWhile_cons]
    simp [hcdot]
  have hcsne : cs ≠ [] := by rw [← hcs] at hcr; rw [hcr]; simp
  have h3 : List.dropWhile (· = '.') cs.reverse = cs.reverse := by
    match hrev : cs.reverse with
    | [] =>
      have : cs = [] := by simpa using congrArg List.reverse hrev
      exact absurd this hcsne
    | x :: xs =>
      have hx : cs.getLast? = some x := by
        rw [← List.head?_reverse, hrev]
        rfl
      rw [List.dropWhile_cons]
      simp [hlast x hx]
  rw [h1, h2, h3, List.reverse_reverse]

/-! ## Lemmas about the diff walk -/

theorem diffSpecSegs_ne_nil :
    ∀ (m : List (String × MVal)) (d : List (String × Val)) (p : List String),
      p ∈ (diffSpecSegs m d).1 ++ (diffSpecSegs m d).2 → p ≠ []
  | [], d, p, hp => by simp [diffSpecSegs] at hp
  | (k, MVal.scalar v) :: rest, d, p, hp => by
    have ih := fun q hq => diffSpecSegs_ne_nil rest d q hq
    match hl : lookup d k with
    | Option.none =>
      simp only [diffSpecSegs, hl, List.mem_append] at hp
      rcases hp with (h | h) | (h | h)
      · simp at h
      · exact ih p (List.mem_append_left _ h)
      · simp at h; subst h; simp
      · exact ih p (List.mem_append_right _ h)
    | some w =>
      by_cases hvw : v = w
      · simp only [diffSpecSegs, hl, if_pos hvw, List.mem_append] at hp
        rcases hp with (h | h) | (h | h)
        · simp at h
        · exact ih p (List.mem_append_left _ h)
        · simp at h
        · exact ih p (List.mem_append_right _ h)
      · simp only [diffSpecSegs, hl, if_neg hvw, List.mem_append] at hp
        rcases hp with (h | h) | (h | h)
        · simp at h; subst h; simp
        · exact ih p (List.mem_append_left _ h)
        · simp at h
        · exact ih p (List.mem_append_right _ h)
  | (k, MVal.record fs) :: rest, d, p, hp => by
    have ih := fun q hq => diffSpecSegs_ne_nil rest d q hq
    match hl : lookup d k with
    | Option.none =>
      simp only [diffSpecSegs, hl, List.mem_append] at hp
      rcases hp with (h | h) | (h | h)
      · simp at h
      · exact ih p (List.mem_append_left _ h)
      · simp at h; subst h; simp
      · exact ih p (List.mem_append_right _ h)
    | some Val.none | some (Val.bool _) | some (Val.int _) | some (Val.str _) =>
      simp only [diffSpecSegs, hl, List.mem_append] at hp
      rcases hp with (h | h) | (h | h)
      · simp at h; subst h; simp
      · exact ih p (List.mem_append_left _ h)
      · simp at h
      · exact ih p (List.mem_append_right _ h)
    | some (Val.table t) =>
      simp only [diffSpecSegs, hl, List.mem_append] at hp
      rcases hp with (h | h) | (h | h)
      · simp only [List.mem_map] at h
        obtain ⟨q, _, rfl⟩ := h
        simp
      · exact ih p (List.mem_append_left _ h)
      · simp only [List.mem_map] at h
        obtain ⟨q, _, rfl⟩ := h
        simp
      · exact ih p (List.mem_append_right _ h)

theorem diffSpecSegs_goodKeys :
    ∀ (m : List (String × MVal)) (d : List (String × Val)),
      keysGoodB m = true →
      ∀ p, p ∈ (diffSpecSegs m d).1 ++ (diffSpecSegs m d).2 →
        ∀ k' ∈ p, goodKey k'
  | [], d, _, p, hp => by simp [diffSpecSegs] at hp
  | (k, MVal.scalar v) :: rest, d, hg, p, hp => by
    simp only [keysGoodB, Bool.and_eq_true, decide_eq_true_eq] at hg
    obtain ⟨hk, hg'⟩ := hg
    have ih := diffSpecSegs_goodKeys rest d hg'
    match hl : lookup d k with
    | Option.none =>
      simp only [diffSpecSegs, hl, List.mem_append] at hp
      rcases hp with (h | h) | (h | h)
      · simp at h
      · exact ih p (List.mem_append_left _ h)
      · simp at h; subst h; simpa using hk
      · exact ih p (List.mem_append_right _ h)
    | some w =>
      by_cases hvw : v = w
      · simp only [diffSpecSegs, hl, if_pos hvw, List.mem_append] at hp
        rcases hp with (h | h) | (h | h)
        · simp at h
        · exact ih p (List.mem_append_left _ h)
        · simp at h
        · exact ih p (List.mem_append_right _ h)
      · simp only [diffSpecSegs, hl, if_neg hvw, List.mem_append] at hp
        rcases hp with (h | h) | (h | h)
        · simp at h; subst h; simpa using hk
        · exact ih p (List.mem_append_left _ h)
        · simp at h
        · exact ih p (List.mem_append_right _ h)
  | (k, MVal.record fs) :: rest, d, hg, p, hp => by
    simp only [keysGoodB, Bool.and_eq_true, decide_eq_true_eq] at hg
    obtain ⟨⟨hk, hgfs⟩, hg'⟩ := hg
    have ih := diffSpecSegs_goodKeys rest d hg'
    match hl : lookup d k with
    | Option.none =>
      simp only [diffSpecSegs, hl, List.mem_append] at hp
      rcases hp with (h | h) | (h | h)
      · simp at h
      · exact ih p (List.mem_append_left _ h)
      · simp at h; subst h; simpa using hk
      · exact ih p (List.mem_append_right _ h)
    | some Val.none | some (Val.bool _) | some (Val.int _) | some (Val.str _) =>
      simp only [diffSpecSegs, hl, List.mem_append] at hp
      rcases hp with (h | h) | (h | h)
      · simp at h; subst h; simpa using hk
      · exact ih p (List.mem_append_left _ h)
      · simp at h
      · exact ih p (List.mem_append_right _ h)
    | some (Val.table t) =>
      have ihin := diffSpecSegs_goodKeys fs t hgfs
      simp only [diffSpecSegs, hl, List.mem_append] at hp
      rcases hp with (h | h) | (h | h)
      · simp only [List.mem_map] at h
        obtain ⟨q, hq, rfl⟩ := h
        intro k' hk'
        rcases List.mem_cons.mp hk' with rfl | hk'
        · exact hk
        · exact ihin q (List.mem_append_left _ hq) k' hk'
      · exact ih p (List.mem_append_left _ h)
      · simp only [List.mem_map] at h
        obtain ⟨q, hq, rfl⟩ := h
        intro k' hk'
        rcases List.mem_cons.mp hk' with rfl | hk'
        · exact hk
        · exact ihin q (List.mem_append_right _ hq) k' hk'
      · exact ih p (List.mem_append_right _ h)

theorem findDiffs_eq_spec :
    ∀ (loc : String) (m : List (String × MVal)) (d : List (String × Val)),
      findDiffs loc m d =
        ((diffSpecSegs m d).1.map (fun p => loc ++ "." ++ joinDots p),
         (diffSpecSegs m d).2.map (fun p => loc ++ "." ++ joinDots p))
  | loc, [], d => by simp [findDiffs, diffSpecSegs]
  | loc, (k, MVal.scalar v) :: rest, d => by
    have ih := findDiffs_eq_spec loc rest d
    match hl : lookup d k with
    | Option.none =>
      simp [findDiffs, diffSpecSegs, hl, ih, joinDots_single]
    | some w =>
      by_cases hvw : v = w
      · simp [findDiffs, diffSpecSegs, hl, if_pos hvw, ih]
      · simp [findDiffs, diffSpecSegs, hl, if_neg hvw, ih, joinDots_single]
  | loc, (k, MVal.record fs) :: rest, d => by
    have ih := findDiffs_eq_spec loc rest d
    match hl : lookup d k with
    | Option.none =>
      simp [findDiffs, diffSpecSegs, hl, ih, joinDots_single]
    | some Val.none | some (Val.bool _) | some (Val.int _) | some (Val.str _) =>
      simp [findDiffs, diffSpecSegs, hl, ih, joinDots_single]
    | some (Val.table t) =>
      have ihin := findDiffs_eq_spec (loc ++ "." ++ k) fs t
      have hmap1 : ((diffSpecSegs fs t).1.map (k :: ·)).map
          (fun p => loc ++ "." ++ joinDots p) =
          (diffSpecSegs fs t).1.map
            (fun p => loc ++ "." ++ k ++ "." ++ joinDots p) := by
        rw [List.map_map]
        apply List.map_congr_left
        intro q hq
        have hqne : q ≠ [] :=
          diffSpecSegs_ne_nil fs t q (List.mem_append_left _ hq)
        simp only [Function.comp]
        rw [joinDots_cons k q hqne, ← String.append_assoc,
          ← String.append_assoc]
      have hmap2 : ((diffSpecSegs fs t).2.map (k :: ·)).map
          (fun p => loc ++ "." ++ joinDots p) =
          (diffSpecSegs fs t).2.map
            (fun p => loc ++ "." ++ k ++ "." ++ joinDots p) := by
        rw [List.map_map]
        apply List.map_congr_left
        intro q hq
        have hqne : q ≠ [] :=
          diffSpecSegs_ne_nil fs t q (List.mem_append_right _ hq)
        simp only [Function.comp]
        rw [joinDots_cons k q hqne, ← String.append_assoc,
          ← String.append_assoc]
      simp [findDiffs, diffSpecSegs, hl, ih, ihin, hmap1, hmap2]

/-! ## Claim C3: diff classification -/

theorem diff_between_document_eq_spec (s : BoundState)
    (incoming : List (String × Val)) (hg : keysGoodB s.model = true) :
    difference_between_document s incoming =
      ⟨(diffSpecSegs s.model incoming).1.map joinDots,
       (diffSpecSegs s.model incoming).2.map joinDots⟩ := by
  unfold difference_between_document
  rw [findDiffs_eq_spec]
  have hstrip1 : ((diffSpecSegs s.model incoming).1.map
      (fun p => "" ++ "." ++ joinDots p)).map stripDots =
      (diffSpecSegs s.model incoming).1.map joinDots := by
    rw [List.map_map]
    apply List.map_congr_left
    intro q hq
    have hqne : q ≠ [] :=
      diffSpecSegs_ne_nil s.model incoming q (List.mem_append_left _ hq)
    have hqgood : ∀ k' ∈ q, goodKey k' :=
      diffSpecSegs_goodKeys s.model incoming hg q (List.mem_append_left _ hq)
    simp only [Function.comp]
    rw [show ("" ++ "." ++ joinDots q : String) = "." ++ joinDots q from rfl]
    exact stripDots_dot_join q hqne hqgood
  have hstrip2 : ((diffSpecSegs s.model incoming).2.map
      (fun p => "" ++ "." ++ joinDots p)).map stripDots =
      (diffSpecSegs s.model incoming).2.map joinDots := by
    rw [List.map_map]
    apply List.map_congr_left
    intro q hq
    have hqne : q ≠ [] :=
      diffSpecSegs_ne_nil s.model incoming q (List.mem_append_right _ hq)
    have hqgood : ∀ k' ∈ q, goodKey k' :=
      diffSpecSegs_goodKeys s.model incoming hg q (List.mem_append_right _ hq)
    simp only [Function.comp]
    rw [show ("" ++ "." ++ joinDots q : String) = "." ++ joinDots q from rfl]
    exact stripDots_dot_join q hqne hqgood
  exact congrArg₂ Difference.mk hstrip1 hstrip2

/-- **C3**: `difference_between_document` classifies exactly as the
spec's table — for every bound document (with the usual pydantic field
names: nonempty, dot-free) and every incoming document, the diff
equals the spec-side classifier `diffSpecSegs` (nested-record key
absent → outgoing-changed; present non-table → incoming-changed;
table → recursed; scalar absent → outgoing-changed; present-unequal →
incoming-changed; equal → no record), each path rendered as the dotted
join of its segments with the leading separator stripped. -/
theorem c3_diff_matches_spec_classification (s : BoundState)
    (incoming : List (String × Val)) (hg : keysGoodB s.model = true) :
    difference_between_document s incoming =
      ⟨(diffSpecSegs s.model incoming).1.map joinDots,
       (diffSpecSegs s.model incoming).2.map joinDots⟩ :=
  diff_between_document_eq_spec s incoming hg

/-- Witness for C3: the spec's second concrete scenario — incoming
changes `project.name` and `project.typechecked`, the model's
`project.description` is absent from the incoming document. -/
theorem c3_witness :
    difference_between_document
      ⟨[("project", MVal.record
          [("name", MVal.scalar (Val.str "tomlantic")),
           ("description", MVal.scalar (Val.str "d")),
           ("typechecked", MVal.scalar (Val.bool false))])],
        [("project", MVal.record
          [("name", MVal.scalar (Val.str "tomlantic")),
           ("description", MVal.scalar (Val.str "d")),
           ("typechecked", MVal.scalar (Val.bool false))])],
        []⟩
      [("project", Val.table
        [("name", Val.str "other"), ("typechecked", Val.bool true)])] =
      ⟨["project.name", "project.typechecked"], ["project.description"]⟩ := by
  rw [c3_diff_matches_spec_classification _ _
    (by simp [keysGoodB, goodKey])]
  simp [diffSpecSegs, lookup]
  refine ⟨⟨rfl, rfl⟩, rfl⟩

theorem fieldsWF_keysGood : ∀ m, fieldsWF m = true → keysGoodB m = true
  | [], _ => by simp [keysGoodB]
  | (k, MVal.scalar v) :: rest, h => by
    simp only [fieldsWF, Bool.and_eq_true, decide_eq_true_eq] at h
    obtain ⟨⟨⟨hk, _⟩, _⟩, hrest⟩ := h
    simp [keysGoodB, hk, fieldsWF_keysGood rest hrest]
  | (k, MVal.record fs) :: rest, h => by
    simp only [fieldsWF, Bool.and_eq_true, decide_eq_true_eq] at h
    obtain ⟨⟨⟨hk, _⟩, hmw⟩, hrest⟩ := h
    have hfs : fieldsWF fs = true := by simpa [mvalWF] using hmw
    simp [keysGoodB, hk, fieldsWF_keysGood fs hfs, fieldsWF_keysGood rest hrest]

theorem diffSpecSegs_inc_head :
    ∀ (m : List (String × MVal)) (d : List (String × Val)) (p : List String),
      p ∈ (diffSpecSegs m d).1 →
      ∃ k' tl, p = k' :: tl ∧ k' ∈ m.map Prod.fst
  | [], d, p, hp => by simp [diffSpecSegs] at hp
  | (k, MVal.scalar v) :: rest, d, p, hp => by
    have ih := diffSpecSegs_inc_head rest d
    match hl : lookup d k with
    | Option.none =>
      simp only [diffSpecSegs, hl, List.nil_append] at hp
      obtain ⟨k', tl, rfl, hk'⟩ := ih p hp
      exact ⟨k', tl, rfl, by simp [hk']⟩
    | some w =>
      by_cases hvw : v = w
      · simp only [diffSpecSegs, hl, if_pos hvw, List.nil_append] at hp
        obtain ⟨k', tl, rfl, hk'⟩ := ih p hp
        exact ⟨k', tl, rfl, by simp [hk']⟩
      · simp only [diffSpecSegs, hl, if_neg hvw, List.singleton_append,
          List.mem_cons] at hp
        rcases hp with rfl | hp
        · exact ⟨k, [], rfl, by simp⟩
        · obtain ⟨k', tl, rfl, hk'⟩ := ih p hp
          exact ⟨k', tl, rfl, by simp [hk']⟩
  | (k, MVal.record fs) :: rest, d, p, hp => by
    have ih := diffSpecSegs_inc_head rest d
    match hl : lookup d k with
    | Option.none =>
      simp only [diffSpecSegs, hl, List.nil_append] at hp
      obtain ⟨k', tl, rfl, hk'⟩ := ih p hp
      exact ⟨k', tl, rfl, by simp [hk']⟩
    | some Val.none | some (Val.bool _) | some (Val.int _) | some (Val.str _) =>
      simp only [diffSpecSegs, hl, List.singleton_append, List.mem_cons] at hp
      rcases hp with rfl | hp
      · exact ⟨k, [], rfl, by simp⟩
      · obtain ⟨k', tl, rfl, hk'⟩ := ih p hp
        exact ⟨k', tl, rfl, by simp [hk']⟩
    | some (Val.table t) =>
      simp only [diffSpecSegs, hl, List.mem_append, List.mem_map] at hp
      rcases hp with ⟨q, _, rfl⟩ | hp
      · exact ⟨k, q, rfl, by simp⟩
      · obtain ⟨k', tl, rfl, hk'⟩ := ih p hp
        exact ⟨k', tl, rfl, by simp [hk']⟩

theorem diffSpecSegs_inc_prefixFree :
    ∀ (m : List (String × MVal)) (d : List (String × Val)),
      fieldsWF m = true →
      ∀ p q, p ∈ (diffSpecSegs m d).1 → q ∈ (diffSpecSegs m d).1 →
        p <+: q → p = q
  | [], d, _, p, q, hp, _, _ => by simp [diffSpecSegs] at hp
  | (k, MVal.scalar v) :: rest, d, hwf, p, q, hp, hq, hpq => by
    simp only [fieldsWF, Bool.and_eq_true, Bool.not_eq_true'] at hwf
    obtain ⟨⟨⟨_, hnc⟩, _⟩, hwf'⟩ := hwf
    have hknotin := containsKey_false rest k hnc
    have ih := diffSpecSegs_inc_prefixFree rest d hwf'
    have ihead := diffSpecSegs_inc_head rest d
    match hl : lookup d k with
    | Option.none =>
      simp only [diffSpecSegs, hl, List.nil_append] at hp hq
      exact ih p q hp hq hpq
    | some w =>
      by_cases hvw : v = w
      · simp only [diffSpecSegs, hl, if_pos hvw, List.nil_append] at hp hq
        exact ih p q hp hq hpq
      · simp only [diffSpecSegs, hl, if_neg hvw, List.singleton_append,
          List.mem_cons] at hp hq
        rcases hp with rfl | hp
        · rcases hq with rfl | hq
          · rfl
          · obtain ⟨k', tl, rfl, hk'⟩ := ihead q hq
            obtain ⟨hk, -⟩ := List.cons_prefix_cons.mp hpq
            exact absurd (hk ▸ hk') hknotin
        · rcases hq with rfl | hq
          · obtain ⟨k', tl, rfl, hk'⟩ := ihead p hp
            obtain ⟨hk, -⟩ := List.cons_prefix_cons.mp hpq
            exact absurd (hk ▸ hk') hknotin
          · exact ih p q hp hq hpq
  | (k, MVal.record fs) :: rest, d, hwf, p, q, hp, hq, hpq => by
    simp only [fieldsWF, Bool.and_eq_true, Bool.not_eq_true'] at hwf
    obtain ⟨⟨⟨_, hnc⟩, hmw⟩, hwf'⟩ := hwf
    have hknotin := containsKey_false rest k hnc
    have ih := diffSpecSegs_inc_prefixFree rest d hwf'
    have ihead := diffSpecSegs_inc_head rest d
    match hl : lookup d k with
    | Option.none =>
      simp only [diffSpecSegs, hl, List.nil_append] at hp hq
      exact ih p q hp hq hpq
    | some Val.none | some (Val.bool _) | some (Val.int _) | some (Val.str _) =>
      simp only [diffSpecSegs, hl, List.singleton_append, List.mem_cons] at hp hq
      rcases hp with rfl | hp
      · rcases hq with rfl | hq
        · rfl
        · obtain ⟨k', tl, rfl, hk'⟩ := ihead q hq
          obtain ⟨hk, -⟩ := List.cons_prefix_cons.mp hpq
          exact absurd (hk ▸ hk') hknotin
      · rcases hq with rfl | hq
        · obtain ⟨k', tl, rfl, hk'⟩ := ihead p hp
          obtain ⟨hk, -⟩ := List.cons_prefix_cons.mp hpq
          exact absurd (hk ▸ hk') hknotin
        · exact ih p q hp hq hpq
    | some (Val.table t) =>
      have hfs : fieldsWF fs = true := by simpa [mvalWF] using hmw
      have ihin := diffSpecSegs_inc_prefixFree fs t hfs
      simp only [diffSpecSegs, hl, List.mem_append, List.mem_map] at hp hq
      rcases hp with ⟨p', hp', rfl⟩ | hp
      · rcases hq with ⟨q', hq', rfl⟩ | hq
        · obtain ⟨-, hpq'⟩ := List.cons_prefix_cons.mp hpq
          rw [ihin p' q' hp' hq' hpq']
        · obtain ⟨k', tl, rfl, hk'⟩ := ihead q hq
          obtain ⟨hk, -⟩ := List.cons_prefix_cons.mp hpq
          exact absurd (hk ▸ hk') hknotin
      · rcases hq with ⟨q', hq', rfl⟩ | hq
        · obtain ⟨k', tl, rfl, hk'⟩ := ihead p hp
          obtain ⟨hk, -⟩ := List.cons_prefix_cons.mp hpq
          exact absurd (hk ▸ hk') hknotin
        · exact ih p q hp hq hpq

theorem setModelFields_preserves :
    ∀ (V : Validator) (fl : List String) (q : List String)
      (fields fields' : List (String × MVal)) (p : List String) (v : Val),
      setModelFields V fl fields q v = .ok fields' →
      ¬ p <+: q → ¬ q <+: p →
      getAttrPathM (MVal.record fields') p =
        getAttrPathM (MVal.record fields) p := by
  intro V fl q
  induction q with
  | nil =>
    intro fields fields' p v h _ _
    simp [setModelFields] at h
  | cons k q1 ih =>
    intro fields fields' p v h hp1 hp2
    match q1 with
    | [] =>
      match hV : V fl fields v with
      | Option.none => rw [setModelFields, hV] at h; cases h
      | some mv =>
        rw [setModelFields, hV] at h
        cases h
        match p with
        | [] => exact absurd (List.nil_prefix) hp1
        | a :: p' =>
          by_cases ha : a = k
          · subst ha
            exact absurd (List.cons_prefix_cons.mpr ⟨rfl, List.nil_prefix⟩) hp2
          · simp [getAttrPathM,
              lookup_setKey_ne fields k a mv (fun hh => ha hh.symm)]
    | r :: q1' =>
      rw [show setModelFields V fl fields (k :: r :: q1') v =
          (match lookup fields k with
           | some (MVal.record sub) =>
             (setModelFields V fl sub (r :: q1') v).map
               (fun sub' => setKey fields k (MVal.record sub'))
           | some (MVal.scalar _) => .error .attrErr
           | Option.none => .error .attrErr) from rfl] at h
      match hl : lookup fields k with
      | Option.none => simp only [hl] at h; cases h
      | some (MVal.scalar _) => simp only [hl] at h; cases h
      | some (MVal.record sub) =>
        simp only [hl] at h
        match hin : setModelFields V fl sub (r :: q1') v with
        | .error e => rw [hin] at h; cases h
        | .ok sub' =>
          rw [hin] at h
          simp only [Except.map, Except.ok.injEq] at h
          subst h
          match p with
          | [] => exact absurd (List.nil_prefix) hp1
          | a :: p' =>
            by_cases ha : a = k
            · subst ha
              have hp1' : ¬ p' <+: r :: q1' := fun hh =>
                hp1 (List.cons_prefix_cons.mpr ⟨rfl, hh⟩)
              have hp2' : ¬ (r :: q1') <+: p' := fun hh =>
                hp2 (List.cons_prefix_cons.mpr ⟨rfl, hh⟩)
              have hrec := ih sub sub' p' v hin hp1' hp2'
              simp [getAttrPathM, lookup_setKey_self, hl, hrec]
            · simp [getAttrPathM,
                lookup_setKey_ne fields k a _ (fun hh => ha hh.symm)]

theorem loadFromLoop_preserves (V : Validator) (s : BoundState)
    (incoming : List (String × Val)) (out : List String) (loc : String)
    (hskip : (decide (loc ∈ out) ||
      decide (getFieldPy s.model loc ≠ getFieldPy s.originalModel loc)) = true) :
    ∀ (locs : List String) (trial trial' : List (String × MVal)),
      loadFromLoop V s incoming true out locs trial = .ok trial' →
      (∀ loc' ∈ locs, loc' = loc ∨
        (¬ splitDots loc <+: splitDots loc' ∧
         ¬ splitDots loc' <+: splitDots loc)) →
      getAttrPathM (MVal.record trial') (splitDots loc) =
        getAttrPathM (MVal.record trial) (splitDots loc) := by
  intro locs
  induction locs with
  | nil =>
    intro trial trial' h _
    rw [show loadFromLoop V s incoming true out [] trial = .ok trial from rfl]
      at h
    cases h
    rfl
  | cons loc'' rest ih =>
    intro trial trial' h hmem
    rw [show loadFromLoop V s incoming true out (loc'' :: rest) trial =
        (if true && (decide (loc'' ∈ out) ||
            decide (getFieldPy s.model loc'' ≠ getFieldPy s.originalModel loc''))
         then loadFromLoop V s incoming true out rest trial
         else if getFieldPy s.model loc'' ≠ MVal.scalar Val.none then
           match get_toml_field incoming (splitDots loc'') Val.none with
           | .error _ => .error .tomlGetErr
           | .ok value =>
             match setModelFields V (splitDots loc'') trial
                 (splitDots loc'') value with
             | .error e => .error e
             | .ok trial2 => loadFromLoop V s incoming true out rest trial2
         else loadFromLoop V s incoming true out rest trial) from rfl] at h
    have hmem' : ∀ loc' ∈ rest, loc' = loc ∨
        (¬ splitDots loc <+: splitDots loc' ∧
         ¬ splitDots loc' <+: splitDots loc) :=
      fun loc' hl => hmem loc' (List.mem_cons_of_mem _ hl)
    by_cases hc : (decide (loc'' ∈ out) ||
        decide (getFieldPy s.model loc'' ≠ getFieldPy s.originalModel loc'')) =
        true
    · rw [show (true && (decide (loc'' ∈ out) ||
          decide (getFieldPy s.model loc'' ≠
            getFieldPy s.originalModel loc''))) =
          (decide (loc'' ∈ out) ||
          decide (getFieldPy s.model loc'' ≠
            getFieldPy s.originalModel loc'')) from by simp, if_pos hc] at h
      exact ih trial trial' h hmem'
    · have hne : loc'' ≠ loc := by
        intro hh
        rw [hh] at hc
        exact hc hskip
      have hpref : ¬ splitDots loc <+: splitDots loc'' ∧
          ¬ splitDots loc'' <+: splitDots loc := by
        rcases hmem loc'' (by simp) with hh | hh
        · exact absurd hh hne
        · exact hh
      rw [show (true && (decide (loc'' ∈ out) ||
          decide (getFieldPy s.model loc'' ≠
            getFieldPy s.originalModel loc''))) =
          (decide (loc'' ∈ out) ||
          decide (getFieldPy s.model loc'' ≠
            getFieldPy s.originalModel loc'')) from by simp, if_neg hc] at h
      by_cases hnn : getFieldPy s.model loc'' ≠ MVal.scalar Val.none
      · rw [if_pos hnn] at h
        match hg : get_toml_field incoming (splitDots loc'') Val.none with
        | .error e => simp only [hg] at h; cases h
        | .ok value =>
          simp only [hg] at h
          match hset : setModelFields V (splitDots loc'') trial
              (splitDots loc'') value with
          | .error e => simp only [hset] at h; cases h
          | .ok trial2 =>
            simp only [hset] at h
            have h1 := ih trial2 trial' h hmem'
            have h2 := setModelFields_preserves V (splitDots loc'')
              (splitDots loc'') trial trial2 (splitDots loc) value hset
              hpref.1 hpref.2
            rw [h1, h2]
      · rw [if_neg hnn] at h
        exact ih trial trial' h hmem'

/-! ## Claim C2: selective merge non-clobber -/

/-- **C2**: for every bound document (well-formed pydantic model:
distinct, identifier-like field names) whose field `loc` was locally
mutated after bind time (its current value differs from the snapshot's
value at `loc`, or `loc` is also in the diff's outgoing-changed set),
and every incoming document that changes `loc` (i.e. `loc` is in the
diff's incoming-changed set), a successful
`load_from_document(incoming, selective := true)` skips `loc`: the
field is left at its locally-mutated value. -/
theorem c2_selective_merge_non_clobber (V : Validator) (s : BoundState)
    (incoming : List (String × Val)) (loc : String) (s' : BoundState)
    (hwf : fieldsWF s.model = true)
    (hin : loc ∈
      (difference_between_document s incoming).incoming_changed_fields)
    (hmut : loc ∈
      (difference_between_document s incoming).outgoing_changed_fields ∨
      getFieldPy s.model loc ≠ getFieldPy s.originalModel loc)
    (hok : load_from_document V s incoming true = .ok s') :
    getFieldPy s'.model loc = getFieldPy s.model loc := by
  have hg := fieldsWF_keysGood s.model hwf
  have hdiff := diff_between_document_eq_spec s incoming hg
  -- extract the successful trial loop
  obtain ⟨m', hloopEq, hs'⟩ : ∃ m', loadFromLoop V s incoming true
      (difference_between_document s incoming).outgoing_changed_fields
      (difference_between_document s incoming).incoming_changed_fields
      s.model = .ok m' ∧ s'.model = m' := by
    simp only [load_from_document] at hok
    match hres : loadFromLoop V s incoming true
        (difference_between_document s incoming).outgoing_changed_fields
        (difference_between_document s incoming).incoming_changed_fields
        s.model with
    | .error e => rw [hres] at hok; cases hok
    | .ok m' =>
      rw [hres] at hok
      refine ⟨m', rfl, ?_⟩
      cases hok
      rfl
  -- the skip condition holds for loc
  have hskip : (decide (loc ∈
      (difference_between_document s incoming).outgoing_changed_fields) ||
      decide (getFieldPy s.model loc ≠ getFieldPy s.originalModel loc)) =
      true := by
    rcases hmut with h | h
    · simp [h]
    · simp [h]
  -- characterize loc as a joined segment path
  rw [hdiff] at hin
  simp only [List.mem_map] at hin
  obtain ⟨pseg, hpseg, hloc⟩ := hin
  have hpne : pseg ≠ [] :=
    diffSpecSegs_ne_nil s.model incoming pseg (List.mem_append_left _ hpseg)
  have hpgood : ∀ k' ∈ pseg, goodKey k' :=
    diffSpecSegs_goodKeys s.model incoming hg pseg (List.mem_append_left _ hpseg)
  have hsplit : splitDots loc = pseg := by
    rw [← hloc]
    exact splitDots_joinDots pseg hpne (fun k hk => (hpgood k hk).2)
  -- every processed location is loc itself or prefix-incomparable
  have hmem : ∀ loc' ∈
      (difference_between_document s incoming).incoming_changed_fields,
      loc' = loc ∨
      (¬ splitDots loc <+: splitDots loc' ∧
       ¬ splitDots loc' <+: splitDots loc) := by
    intro loc' hl'
    rw [hdiff] at hl'
    simp only [List.mem_map] at hl'
    obtain ⟨q, hq, hq'⟩ := hl'
    by_cases hqe : q = pseg
    · left
      rw [← hq', hqe, hloc]
    · right
      have hqne : q ≠ [] :=
        diffSpecSegs_ne_nil s.model incoming q (List.mem_append_left _ hq)
      have hqgood : ∀ k' ∈ q, goodKey k' :=
        diffSpecSegs_goodKeys s.model incoming hg q (List.mem_append_left _ hq)
      have hsplit' : splitDots loc' = q := by
        rw [← hq']
        exact splitDots_joinDots q hqne (fun k hk => (hqgood k hk).2)
      rw [hsplit, hsplit']
      constructor
      · intro hpre
        exact hqe (diffSpecSegs_inc_prefixFree s.model incoming hwf
          pseg q hpseg hq hpre).symm
      · intro hpre
        exact hqe (diffSpecSegs_inc_prefixFree s.model incoming hwf
          q pseg hq hpseg hpre)
  have hpres := loadFromLoop_preserves V s incoming
    (difference_between_document s incoming).outgoing_changed_fields loc hskip
    (difference_between_document s incoming).incoming_changed_fields
    s.model m' hloopEq hmem
  rw [hs']
  simp only [getFieldPy, _get_model_field]
  rw [hpres]

/-- Witness for C2: field `a` was locally changed from `1` to `5`; the
incoming document changes both `a` (to `9`) and `b` (to `7`); the
selective merge adopts `b` but leaves `a` at the locally-mutated `5`. -/
theorem c2_witness :
    load_from_document (fun _ _ v => some (MVal.scalar v))
      ⟨[("a", MVal.scalar (Val.int 5)), ("b", MVal.scalar (Val.int 2))],
       [("a", MVal.scalar (Val.int 1)), ("b", MVal.scalar (Val.int 2))],
       [("a", Val.int 1), ("b", Val.int 2)]⟩
      [("a", Val.int 9), ("b", Val.int 7)] true =
      .ok ⟨[("a", MVal.scalar (Val.int 5)), ("b", MVal.scalar (Val.int 7))],
       [("a", MVal.scalar (Val.int 1)), ("b", MVal.scalar (Val.int 2))],
       [("a", Val.int 1), ("b", Val.int 2)]⟩ ∧
    getFieldPy [("a", MVal.scalar (Val.int 5)), ("b", MVal.scalar (Val.int 7))]
        "a" =
      getFieldPy [("a", MVal.scalar (Val.int 5)), ("b", MVal.scalar (Val.int 2))]
        "a" := by
  have hdiffc : difference_between_document
      ⟨[("a", MVal.scalar (Val.int 5)), ("b", MVal.scalar (Val.int 2))],
       [("a", MVal.scalar (Val.int 1)), ("b", MVal.scalar (Val.int 2))],
       [("a", Val.int 1), ("b", Val.int 2)]⟩
      [("a", Val.int 9), ("b", Val.int 7)] = ⟨["a", "b"], []⟩ := by
    simp [difference_between_document, findDiffs, lookup]
    constructor <;> rfl
  have hload : load_from_document (fun _ _ v => some (MVal.scalar v))
      ⟨[("a", MVal.scalar (Val.int 5)), ("b", MVal.scalar (Val.int 2))],
       [("a", MVal.scalar (Val.int 1)), ("b", MVal.scalar (Val.int 2))],
       [("a", Val.int 1), ("b", Val.int 2)]⟩
      [("a", Val.int 9), ("b", Val.int 7)] true =
      .ok ⟨[("a", MVal.scalar (Val.int 5)), ("b", MVal.scalar (Val.int 7))],
       [("a", MVal.scalar (Val.int 1)), ("b", MVal.scalar (Val.int 2))],
       [("a", Val.int 1), ("b", Val.int 2)]⟩ := by
    simp only [load_from_document, hdiffc]
    rfl
  refine ⟨hload, ?_⟩
  exact c2_selective_merge_non_clobber (fun _ _ v => some (MVal.scalar v))
    ⟨[("a", MVal.scalar (Val.int 5)), ("b", MVal.scalar (Val.int 2))],
     [("a", MVal.scalar (Val.int 1)), ("b", MVal.scalar (Val.int 2))],
     [("a", Val.int 1), ("b", Val.int 2)]⟩
    [("a", Val.int 9), ("b", Val.int 7)] "a"
    ⟨[("a", MVal.scalar (Val.int 5)), ("b", MVal.scalar (Val.int 7))],
     [("a", MVal.scalar (Val.int 1)), ("b", MVal.scalar (Val.int 2))],
     [("a", Val.int 1), ("b", Val.int 2)]⟩
    (by simp [fieldsWF, containsKey, mvalWF, goodKey, lookup])
    (by rw [hdiffc]; simp)
    (Or.inr (by decide))
    hload

theorem hitsNonContainer_nil (rest : List String) :
    hitsNonContainer [] rest = false := by
  match rest with
  | [] => rfl
  | [_] => rfl
  | _ :: _ :: _ => simp [hitsNonContainer, lookup]

theorem lookupPath_cons (kvs : List (String × Val)) (k : String) (r : String)
    (rest : List String) :
    lookupPath kvs (k :: r :: rest) =
      match lookup kvs k with
      | some (Val.table t) => lookupPath t (r :: rest)
      | _ => Option.none := rfl

/-! ## Claims C7, C4 and C9: raw path get/set -/

/-- **C7**: `set_toml_field` creates an empty table at each missing
intermediate segment and then assigns the value at the final segment
(on success the value is readable at the full path, so in particular
every missing intermediate was materialised as a table); when an
intermediate segment already holds a non-container value it fails with
the non-container error `SetDocErr.nonContainer`, which is a raw
`LookupError` distinct from the aggregate `TOMLValidationError` shape
and is never translated. -/
theorem c7_set_toml_field_creates_tables_or_non_container
    (kvs : List (String × Val)) (location : List String) (v : Val)
    (hne : location ≠ []) :
    (hitsNonContainer kvs location = true →
      set_toml_field kvs location v = .error .nonContainer) ∧
    (hitsNonContainer kvs location = false →
      ∃ kvs', set_toml_field kvs location v = .ok kvs' ∧
        lookupPath kvs' location = some v) := by
  induction location generalizing kvs with
  | nil => exact absurd rfl hne
  | cons k rest ih =>
    match rest with
    | [] =>
      refine ⟨fun h => by simp [hitsNonContainer] at h, fun _ => ?_⟩
      exact ⟨setKey kvs k v, rfl, lookup_setKey_self kvs k v⟩
    | r :: rest' =>
      have hrest : (r :: rest' : List String) ≠ [] := by simp
      constructor
      · intro hhit
        rw [show hitsNonContainer kvs (k :: r :: rest') =
              (match lookup kvs k with
               | Option.none => false
               | some (Val.table t) => hitsNonContainer t (r :: rest')
               | some _ => true) from rfl] at hhit
        rw [show set_toml_field kvs (k :: r :: rest') v =
              (match lookup kvs k with
               | Option.none => (set_toml_field [] (r :: rest') v).map
                   (fun t => setKey kvs k (Val.table t))
               | some (Val.table t) => (set_toml_field t (r :: rest') v).map
                   (fun t' => setKey kvs k (Val.table t'))
               | some _ => .error .nonContainer) from rfl]
        match hl : lookup kvs k with
        | Option.none => simp [hl] at hhit
        | some (Val.table t) =>
          simp only [hl] at hhit ⊢
          rw [(ih t hrest).1 hhit]
          rfl
        | some Val.none | some (Val.bool _) | some (Val.int _) | some (Val.str _) =>
          simp [hl]
      · intro hmiss
        rw [show hitsNonContainer kvs (k :: r :: rest') =
              (match lookup kvs k with
               | Option.none => false
               | some (Val.table t) => hitsNonContainer t (r :: rest')
               | some _ => true) from rfl] at hmiss
        rw [show set_toml_field kvs (k :: r :: rest') v =
              (match lookup kvs k with
               | Option.none => (set_toml_field [] (r :: rest') v).map
                   (fun t => setKey kvs k (Val.table t))
               | some (Val.table t) => (set_toml_field t (r :: rest') v).map
                   (fun t' => setKey kvs k (Val.table t'))
               | some _ => .error .nonContainer) from rfl]
        match hl : lookup kvs k with
        | Option.none =>
          have h0 : hitsNonContainer [] (r :: rest') = false :=
            hitsNonContainer_nil _
          obtain ⟨t', ht', hlp⟩ := (ih [] hrest).2 h0
          refine ⟨setKey kvs k (Val.table t'), ?_, ?_⟩
          · simp [ht', Except.map]
          · rw [lookupPath_cons, lookup_setKey_self]
            exact hlp
        | some (Val.table t) =>
          simp only [hl] at hmiss
          obtain ⟨t', ht', hlp⟩ := (ih t hrest).2 hmiss
          refine ⟨setKey kvs k (Val.table t'), ?_, ?_⟩
          · simp [hl, ht', Except.map]
          · rw [lookupPath_cons, lookup_setKey_self]
            exact hlp
        | some Val.none | some (Val.bool _) | some (Val.int _) | some (Val.str _) =>
          simp [hl] at hmiss

/-- Witness for C7: both branches at concrete inputs. -/
theorem c7_witness :
    set_toml_field [("a", Val.int 1)] ["a", "b"] (Val.int 2) =
      .error .nonContainer ∧
    set_toml_field [("a", Val.int 1)] ["c", "d"] (Val.int 2) =
      .ok [("a", Val.int 1), ("c", Val.table [("d", Val.int 2)])] := by
  have h1 := (c7_set_toml_field_creates_tables_or_non_container
    [("a", Val.int 1)] ["a", "b"] (Val.int 2) (by simp)).1 (by decide)
  have h2 := (c7_set_toml_field_creates_tables_or_non_container
    [("a", Val.int 1)] ["c", "d"] (Val.int 2) (by simp)).2 (by decide)
  exact ⟨h1, by rfl⟩

/-- **C4** (counterexample): the claim that `get_toml_field` returns
the value stored at the path whenever every segment is present, and
never raises for a missing path, is false on the code.  First input:
the path `a.b` is missing from `{a = 1}` (the segment `b` does not
exist because `a` is a scalar), yet the call raises `AttributeError`
instead of returning the default.  Second input: every segment of
`a.b` is present in `{a = {b = 1}}` and holds `1`, but because the
value at the intermediate segment `a` compares equal to the supplied
default, the function returns the default table instead of the stored
value `1`. -/
theorem c4_counterexample :
    get_toml_field [("a", Val.int 1)] ["a", "b"] (Val.int 0) = .error () ∧
    (get_toml_field [("a", Val.table [("b", Val.int 1)])] ["a", "b"]
        (Val.table [("b", Val.int 1)]) = .ok (Val.table [("b", Val.int 1)]) ∧
      lookupPath [("a", Val.table [("b", Val.int 1)])] ["a", "b"] =
        some (Val.int 1) ∧
      Val.table [("b", Val.int 1)] ≠ Val.int 1) := by
  refine ⟨rfl, rfl, rfl, by simp⟩

/-- **C4** (amended): for every document tree, location path and
default, *provided the traversal is clean* — every present
intermediate value along the path is a table and no present
intermediate value compares equal to the default — `get_toml_field`
returns the value stored at the path if every segment is present and
returns the default if any segment is absent, and it never raises. -/
theorem c4_get_toml_field_total_on_clean_paths
    (kvs : List (String × Val)) (location : List String) (default : Val)
    (hclean : cleanPath kvs location default = true) :
    get_toml_field kvs location default =
      .ok ((lookupPath kvs location).getD default) := by
  induction location generalizing kvs with
  | nil => rfl
  | cons k rest ih =>
    match rest with
    | [] =>
      show getTomlGo (Val.table kvs) [k] default = _
      rw [show getTomlGo (Val.table kvs) [k] default =
            (if (lookup kvs k).getD default = default then .ok default
             else getTomlGo ((lookup kvs k).getD default) [] default) from rfl]
      by_cases h : (lookup kvs k).getD default = default
      · simp only [h, if_pos rfl]
        match hl : lookup kvs k with
        | Option.none => simp [lookupPath, hl]
        | some w =>
          rw [hl] at h
          simp [lookupPath, hl, h]
      · simp only [if_neg h]
        match hl : lookup kvs k with
        | Option.none => rw [hl] at h; simp at h
        | some w => simp [lookupPath, hl, getTomlGo]
    | r :: rest' =>
      rw [show cleanPath kvs (k :: r :: rest') default =
            (match lookup kvs k with
             | Option.none => true
             | some (Val.table t) =>
               decide (Val.table t ≠ default) && cleanPath t (r :: rest') default
             | some _ => false) from rfl] at hclean
      show getTomlGo (Val.table kvs) (k :: r :: rest') default = _
      rw [show getTomlGo (Val.table kvs) (k :: r :: rest') default =
            (if (lookup kvs k).getD default = default then .ok default
             else getTomlGo ((lookup kvs k).getD default) (r :: rest') default)
          from rfl]
      match hl : lookup kvs k with
      | Option.none =>
        simp [lookupPath_cons, hl]
      | some (Val.table t) =>
        rw [hl] at hclean
        simp only [Bool.and_eq_true, decide_eq_true_eq] at hclean
        obtain ⟨hne, hcl⟩ := hclean
        simp only [hl, Option.getD_some, if_neg hne]
        rw [lookupPath_cons, hl]
        exact ih t hcl
      | some Val.none | some (Val.bool _) | some (Val.int _) | some (Val.str _) =>
        rw [hl] at hclean; simp at hclean

/-- Witness for C4 (amended): a present path and an absent path, both
clean, at concrete inputs. -/
theorem c4_witness :
    get_toml_field [("a", Val.table [("b", Val.int 1)])] ["a", "b"] Val.none =
      .ok (Val.int 1) ∧
    get_toml_field [("a", Val.table [("b", Val.int 1)])] ["a", "z"] Val.none =
      .ok Val.none := by
  have h1 := c4_get_toml_field_total_on_clean_paths
    [("a", Val.table [("b", Val.int 1)])] ["a", "b"] Val.none (by decide)
  have h2 := c4_get_toml_field_total_on_clean_paths
    [("a", Val.table [("b", Val.int 1)])] ["a", "z"] Val.none (by decide)
  exact ⟨h1, h2⟩

/-- **C9**: `get_toml_field` cannot distinguish a stored value from an
absent field when the stored value compares equal to the supplied
default: whenever the code's own walk reaches a table `t` after some
prefix and the next segment *exists* in `t` with a value equal to the
default, the call returns the default immediately, for every
continuation `rest` of the path — deeper existing fields are never
consulted. -/
theorem c9_get_toml_field_stops_on_default_equal_value
    (kvs t : List (String × Val)) (prefix_ rest : List String)
    (k : String) (default : Val)
    (hwalk : walkCode kvs prefix_ default = some t)
    (hstored : lookup t k = some default) :
    get_toml_field kvs (prefix_ ++ k :: rest) default = .ok default := by
  induction prefix_ generalizing kvs with
  | nil =>
    simp only [walkCode, Option.some.injEq] at hwalk
    subst hwalk
    show getTomlGo (Val.table kvs) (k :: rest) default = _
    rw [show getTomlGo (Val.table kvs) (k :: rest) default =
          (if (lookup kvs k).getD default = default then .ok default
           else getTomlGo ((lookup kvs k).getD default) rest default) from rfl]
    simp [hstored]
  | cons a p' ih =>
    rw [show walkCode kvs (a :: p') default =
          (match lookup kvs a with
           | some (Val.table t₀) =>
             if Val.table t₀ = default then Option.none
             else walkCode t₀ p' default
           | _ => Option.none) from rfl] at hwalk
    match hl : lookup kvs a with
    | Option.none => simp [hl] at hwalk
    | some (Val.table t₀) =>
      simp only [hl] at hwalk
      by_cases hd : Val.table t₀ = default
      · simp [hd] at hwalk
      · rw [if_neg hd] at hwalk
        show getTomlGo (Val.table kvs) (a :: (p' ++ k :: rest)) default = _
        rw [show getTomlGo (Val.table kvs) (a :: (p' ++ k :: rest)) default =
              (if (lookup kvs a).getD default = default then .ok default
               else getTomlGo ((lookup kvs a).getD default)
                 (p' ++ k :: rest) default) from rfl]
        simp only [hl, Option.getD_some, if_neg hd]
        exact ih t₀ hwalk
    | some Val.none | some (Val.bool _) | some (Val.int _) | some (Val.str _) =>
      simp [hl] at hwalk

/-- Witness for C9: the document `{a = {b = 7, c = 9}}` with default
`7`: looking up `a.b.c` stops at `b` (which exists and holds the
default) and returns the default, never reaching `c`. -/
theorem c9_witness :
    get_toml_field [("a", Val.table [("b", Val.int 7), ("c", Val.int 9)])]
      ["a", "b", "c"] (Val.int 7) = .ok (Val.int 7) := by
  exact c9_get_toml_field_stops_on_default_equal_value
    [("a", Val.table [("b", Val.int 7), ("c", Val.int 9)])]
    [("b", Val.int 7), ("c", Val.int 9)] ["a"] ["c"] "b" (Val.int 7)
    (by decide) (by decide)

end Tomlantic
